import Mathlib

/-!
Shallow embedding of protodantic's `base.py` (class `ProtoModel`): the schema
derivation `create_proto_map`, the wire encoder (`model_dump_proto` with its
helpers `build_key`, `_encode_value`, `encode_list`, `endode_dict`,
`encode_field`), the varint codec (`_EncodeVarint` / `_decode_varint`) and the
wire decoder (`model_validate_proto`), together with theorems checking the
natural-language specification of the repository against this code.

Modelling conventions:
* Python `bytes` values are `List Nat`, one element per byte.
* Bit operations are rendered arithmetically: `x & 0x7f` is `x % 128`,
  `x >> 3` is `x / 8`, `x & 0x07` is `x % 8`, `x << 3` is `x * 8`,
  `x << shift` is `x * 2 ^ shift`, and `byte & 0x80 == 0` is
  `byte % 256 < 128` (bit 7 of `byte` clear).  The accumulation
  `result |= contribution` inside `_decode_varint` is written `+`: each
  contribution lives in the bit range `[shift, shift + 7)`, above all bits
  already in `result`, so `|` and `+` coincide on every reachable state.
* Python floats are carried as their IEEE-754 64-bit pattern (a `Nat` below
  `2 ^ 64`); `struct.pack('<d', v)` / `struct.unpack('<d', bs)` become
  little-endian byte (de)serialisation of that pattern.
* Python `str` values are carried as their UTF-8 byte sequence, so
  `.encode('utf-8')` / `.decode('utf-8')` are identities of the model.
* Fallible code returns `Except String`, each `raise` site keeping a
  recognisable message.
-/

namespace Protodantic

/-- Runtime values the encoder/decoder manipulate: the Python values a
`ProtoModel` field can hold.  `vnone` is Python `None`; `vfloat` carries the
IEEE-754 bit pattern; `vstr` carries the UTF-8 bytes; `vmsg` is a model
instance given by its field values in declaration order; `ventry` is the
transient `(entry_key, entry_value)` tuple built while decoding one map
entry (either side `none` when the corresponding sub-field never appeared). -/
inductive PValue where
  | vnone : PValue
  | vint (n : Nat) : PValue
  | vbool (b : Bool) : PValue
  | vfloat (bits : Nat) : PValue
  | vstr (bs : List Nat) : PValue
  | vbytes (bs : List Nat) : PValue
  | venum (n : Nat) : PValue
  | vmsg (fieldVals : List PValue) : PValue
  | vlist (xs : List PValue) : PValue
  | vmap (entries : List (PValue × PValue)) : PValue
  | ventry (k v : Option PValue) : PValue

mutual
/-- Structural equality on model values, standing in for Python `==` where
`base.py` uses it (the default-comparison in `model_dump_proto`).  Python's
cross-type numeric equalities (`True == 1`, `1 == 1.0`) are outside the
model. -/
def peq : PValue → PValue → Bool
  | .vnone, .vnone => true
  | .vint a, .vint b => a == b
  | .vbool a, .vbool b => a == b
  | .vfloat a, .vfloat b => a == b
  | .vstr a, .vstr b => a == b
  | .vbytes a, .vbytes b => a == b
  | .venum a, .venum b => a == b
  | .vmsg a, .vmsg b => peqList a b
  | .vlist a, .vlist b => peqList a b
  | .vmap a, .vmap b => peqEntries a b
  | .ventry k1 v1, .ventry k2 v2 => peqOpt k1 k2 && peqOpt v1 v2
  | _, _ => false

/-- Elementwise `peq` on value lists. -/
def peqList : List PValue → List PValue → Bool
  | [], [] => true
  | x :: xs, y :: ys => peq x y && peqList xs ys
  | _, _ => false

/-- Pairwise `peq` on map entry lists. -/
def peqEntries : List (PValue × PValue) → List (PValue × PValue) → Bool
  | [], [] => true
  | (k1, v1) :: xs, (k2, v2) :: ys => peq k1 k2 && peq v1 v2 && peqEntries xs ys
  | _, _ => false

/-- `peq` lifted to optional values. -/
def peqOpt : Option PValue → Option PValue → Bool
  | none, none => true
  | some a, some b => peq a b
  | _, _ => false
end

mutual
/-- `peq` decides structural equality. -/
theorem peq_iff : ∀ a b : PValue, peq a b = true ↔ a = b
  | .vnone, b => by cases b <;> simp [peq]
  | .vint a, b => by cases b <;> simp [peq]
  | .vbool a, b => by cases b <;> simp [peq]
  | .vfloat a, b => by cases b <;> simp [peq]
  | .vstr a, b => by cases b <;> simp [peq]
  | .vbytes a, b => by cases b <;> simp [peq]
  | .venum a, b => by cases b <;> simp [peq]
  | .vmsg a, b => by
    cases b <;> try simp [peq]
    exact peqList_iff a _
  | .vlist a, b => by
    cases b <;> try simp [peq]
    exact peqList_iff a _
  | .vmap a, b => by
    cases b <;> try simp [peq]
    exact peqEntries_iff a _
  | .ventry k1 v1, b => by
    cases b <;> try simp [peq]
    rw [peqOpt_iff, peqOpt_iff]
termination_by a _ => sizeOf a

/-- `peqList` decides structural equality of value lists. -/
theorem peqList_iff : ∀ xs ys : List PValue, peqList xs ys = true ↔ xs = ys
  | [], ys => by cases ys <;> simp [peqList]
  | x :: xs, [] => by simp [peqList]
  | x :: xs, y :: ys => by
    have h1 := peq_iff x y
    have h2 := peqList_iff xs ys
    simp [peqList, h1, h2]
termination_by xs _ => sizeOf xs

/-- `peqEntries` decides structural equality of entry lists. -/
theorem peqEntries_iff : ∀ xs ys : List (PValue × PValue), peqEntries xs ys = true ↔ xs = ys
  | [], ys => by cases ys <;> simp [peqEntries]
  | x :: xs, [] => by simp [peqEntries]
  | (k1, v1) :: xs, (k2, v2) :: ys => by
    have h1 := peq_iff k1 k2
    have h2 := peq_iff v1 v2
    have h3 := peqEntries_iff xs ys
    simp [peqEntries, h1, h2, h3]
termination_by xs _ => sizeOf xs

/-- `peqOpt` decides structural equality of optional values. -/
theorem peqOpt_iff : ∀ a b : Option PValue, peqOpt a b = true ↔ a = b
  | none, b => by cases b <;> simp [peqOpt]
  | some a, none => by simp [peqOpt]
  | some a, some b => by simp [peqOpt, peq_iff a b]
termination_by a _ => sizeOf a
end

instance : DecidableEq PValue := fun a b =>
  decidable_of_iff (peq a b = true) (peq_iff a b)

mutual
/-- Field type annotations supported by `base.py` (the spec's `FieldKind`):
`tOpt` is `Optional[T]` / `T | None`; a nested message type carries the field
declarations of the nested `ProtoModel` class. -/
inductive PType where
  | tInt : PType
  | tBool : PType
  | tFloat : PType
  | tStr : PType
  | tBytes : PType
  | tEnum : PType
  | tMsg (fields : List FieldDecl) : PType
  | tList (elem : PType) : PType
  | tMap (key val : PType) : PType
  | tOpt (inner : PType) : PType

/-- One declared pydantic field as `create_proto_map` and the codec see it:
`meta` is `field.json_schema_extra` (`none` when it is not a dict, `some none`
for a dict without a `"proto_index"` key, `some (some k)` for a dict with
`"proto_index": k`); `ty` is `field.annotation`; `required` is
`field.is_required()`; `dflt` is `field.default`. -/
inductive FieldDecl where
  | mk (meta : Option (Option Nat)) (ty : PType) (required : Bool)
      (dflt : PValue) : FieldDecl
end

/-- Projection: the `json_schema_extra` marker of a field declaration. -/
def FieldDecl.meta : FieldDecl → Option (Option Nat)
  | .mk m _ _ _ => m

/-- Projection: the type annotation of a field declaration. -/
def FieldDecl.ty : FieldDecl → PType
  | .mk _ t _ _ => t

/-- Projection: `field.is_required()`. -/
def FieldDecl.required : FieldDecl → Bool
  | .mk _ _ r _ => r

/-- Projection: `field.default`. -/
def FieldDecl.dflt : FieldDecl → PValue
  | .mk _ _ _ d => d

/-- Placeholder declaration used for out-of-range list indexing in the model
(unreachable in runs that correspond to actual Python executions). -/
def dfltDecl : FieldDecl := .mk none .tInt true .vnone

/-! ### Varint codec -/

/-- Google protobuf's `_EncodeVarint` (unsigned LEB128), as the encoder calls
it: 7 payload bits per byte, least significant group first, continuation bit
`0x80` on every byte but the last. -/
def encodeVarint (n : Nat) : List Nat :=
  if n < 128 then [n] else (n % 128 + 128) :: encodeVarint (n / 128)
termination_by n
decreasing_by
  exact Nat.div_lt_self (by omega) (by omega)

/-- Loop of `ProtoModel._decode_varint` (`base.py` lines 161-175): `acc` is
`result` and `shift` the running shift.  Running out of input breaks out of
the loop and returns the partial accumulator: there is no error path. -/
def decodeVarintAux : List Nat → Nat → Nat → Nat × List Nat
  | [], _, acc => (acc, [])
  | b :: rest, shift, acc =>
    let acc2 := acc + b % 128 * 2 ^ shift
    if b % 256 < 128 then (acc2, rest) else decodeVarintAux rest (shift + 7) acc2

/-- `ProtoModel._decode_varint` on a byte list, returning the decoded value
together with the unread remainder of the stream. -/
def decode_varint (bs : List Nat) : Nat × List Nat :=
  decodeVarintAux bs 0 0

/-- Decoding an encoded varint from the front of a stream recovers the value
and consumes exactly the encoded bytes, from any accumulator state. -/
theorem decodeVarintAux_encode (n : Nat) : ∀ (rest : List Nat) (shift acc : Nat),
    decodeVarintAux (encodeVarint n ++ rest) shift acc = (acc + n * 2 ^ shift, rest) := by
  induction n using Nat.strong_induction_on with
  | _ n ih =>
    intro rest shift acc
    rw [encodeVarint]
    by_cases h : n < 128
    · simp only [if_pos h, List.cons_append, List.nil_append, decodeVarintAux,
        Nat.mod_eq_of_lt h, Nat.mod_eq_of_lt (show n < 256 by omega), if_pos h]
    · simp only [if_neg h, List.cons_append, decodeVarintAux]
      have hm : n % 128 < 128 := Nat.mod_lt _ (by omega)
      have hb1 : (n % 128 + 128) % 128 = n % 128 := by omega
      have hb2 : ¬ (n % 128 + 128) % 256 < 128 := by omega
      rw [if_neg hb2, hb1, ih (n / 128) (Nat.div_lt_self (by omega) (by omega))]
      have h3 : n % 128 + 128 * (n / 128) = n := Nat.mod_add_div n 128
      have h4 : (2 : Nat) ^ (shift + 7) = 2 ^ shift * 128 := by
        rw [pow_add]; norm_num
      rw [h4]
      congr 1
      calc acc + n % 128 * 2 ^ shift + n / 128 * (2 ^ shift * 128)
          = acc + (n % 128 + 128 * (n / 128)) * 2 ^ shift := by ring
        _ = acc + n * 2 ^ shift := by rw [h3]

/-- Decoding an encoded varint from the front of a stream gives back the
value and the untouched remainder. -/
theorem decode_varint_encode (n : Nat) (rest : List Nat) :
    decode_varint (encodeVarint n ++ rest) = (n, rest) := by
  simp [decode_varint, decodeVarintAux_encode]

/-- The varint decoder never un-reads: the remainder is no longer than the
input. -/
theorem decodeVarintAux_length : ∀ (bs : List Nat) (shift acc : Nat),
    (decodeVarintAux bs shift acc).2.length ≤ bs.length := by
  intro bs
  induction bs with
  | nil => intro shift acc; simp [decodeVarintAux]
  | cons b rest ih =>
    intro shift acc
    simp only [decodeVarintAux]
    split
    · simp
    · exact le_trans (ih _ _) (by simp)

/-- On a nonempty stream the varint decoder consumes at least one byte. -/
theorem decodeVarintAux_length_lt (b : Nat) (bs : List Nat) (shift acc : Nat) :
    (decodeVarintAux (b :: bs) shift acc).2.length < (b :: bs).length := by
  simp only [decodeVarintAux]
  split
  · simp
  · exact lt_of_le_of_lt (decodeVarintAux_length bs _ _) (by simp)

/-- Length form of `decode_varint`'s consumption bound. -/
theorem decode_varint_length (bs : List Nat) :
    (decode_varint bs).2.length ≤ bs.length :=
  decodeVarintAux_length bs 0 0

/-- On a nonempty stream `decode_varint` consumes at least one byte. -/
theorem decode_varint_length_lt (b : Nat) (bs : List Nat) :
    (decode_varint (b :: bs)).2.length < (b :: bs).length :=
  decodeVarintAux_length_lt b bs 0 0

/-! ### Fixed 64-bit (double) packing -/

/-- `struct.pack('<d', value)` at the bit level: little-endian 8-byte
serialisation of the 64-bit pattern. -/
def packLE64 (bits : Nat) : List Nat :=
  [bits % 256, bits / 256 % 256, bits / 65536 % 256, bits / 16777216 % 256,
   bits / 4294967296 % 256, bits / 1099511627776 % 256,
   bits / 281474976710656 % 256, bits / 72057594037927936 % 256]

/-- `struct.unpack('<d', bs)` at the bit level: little-endian reassembly of
exactly 8 bytes. -/
def unpackLE64 (bs : List Nat) : Nat :=
  match bs with
  | [b0, b1, b2, b3, b4, b5, b6, b7] =>
    b0 + b1 * 256 + b2 * 65536 + b3 * 16777216 + b4 * 4294967296 +
      b5 * 1099511627776 + b6 * 281474976710656 + b7 * 72057594037927936
  | _ => 0

/-- Packing an in-range 64-bit pattern and unpacking it is the identity. -/
theorem unpackLE64_packLE64 (bits : Nat) (h : bits < 18446744073709551616) :
    unpackLE64 (packLE64 bits) = bits := by
  simp only [packLE64, unpackLE64]
  omega

/-- The packed form of a 64-bit pattern is 8 bytes long. -/
theorem packLE64_length (bits : Nat) : (packLE64 bits).length = 8 := rfl

/-! ### Association-list model of Python dicts -/

/-- Python `dict` assignment `m[k] = v` on an insertion-ordered dictionary:
an existing key keeps its position and gets the new value, a fresh key is
appended at the end. -/
def dictInsert {κ α : Type} [DecidableEq κ] (m : List (κ × α)) (k : κ) (v : α) :
    List (κ × α) :=
  if m.any (fun p => p.1 = k) then
    m.map (fun p => if p.1 = k then (k, v) else p)
  else m ++ [(k, v)]

/-- Python `k in m` / `m[k]` on an insertion-ordered dictionary. -/
def dictLookup {κ α : Type} [DecidableEq κ] (m : List (κ × α)) (k : κ) : Option α :=
  (m.find? (fun p => p.1 = k)).map (fun p => p.2)

/-- Inserting a fresh key appends it. -/
theorem dictInsert_fresh {κ α : Type} [DecidableEq κ] (m : List (κ × α)) (k : κ) (v : α)
    (h : ∀ p ∈ m, p.1 ≠ k) : dictInsert m k v = m ++ [(k, v)] := by
  unfold dictInsert
  rw [if_neg]
  simp only [List.any_eq_true, decide_eq_true_eq, not_exists, not_and]
  intro p hp
  exact h p hp

/-- Looking up a key present in the dictionary. -/
theorem dictLookup_append_self {κ α : Type} [DecidableEq κ] (m : List (κ × α)) (k : κ) (v : α)
    (h : ∀ p ∈ m, p.1 ≠ k) : dictLookup (m ++ [(k, v)]) k = some v := by
  induction m with
  | nil => simp [dictLookup, List.find?]
  | cons p rest ih =>
    have hp : p.1 ≠ k := h p (by simp)
    simp only [List.cons_append, dictLookup, List.find?]
    rw [show (decide (p.1 = k)) = false by simp [hp]]
    exact ih (fun q hq => h q (by simp [hq]))


/-! ### Schema resolution: `create_proto_map` (`base.py` lines 129-140) -/

/-- Loop body of `create_proto_map`: walk the declared fields in declaration
order carrying `default_index` (starting at 1 and advancing for *every*
field), and build the insertion-ordered `proto_map` from field number to the
index of the declaration (the Python dict holds `{"name", "infos"}`; the
declaration index identifies both).  A field whose `json_schema_extra` is a
dict with a `"proto_index"` lands at that number; a field whose
`json_schema_extra` is a dict without one is not inserted at all; any other
field lands at `default_index`. -/
def createProtoMapAux : List FieldDecl → Nat → Nat → List (Nat × Nat) → List (Nat × Nat)
  | [], _, _, acc => acc
  | f :: fs, idx, default_index, acc =>
    match f.meta with
    | some (some k) => createProtoMapAux fs (idx + 1) (default_index + 1) (dictInsert acc k idx)
    | some none => createProtoMapAux fs (idx + 1) (default_index + 1) acc
    | none => createProtoMapAux fs (idx + 1) (default_index + 1) (dictInsert acc default_index idx)

/-- `ProtoModel.create_proto_map`: the insertion-ordered mapping from wire
field number to declared field (identified by its declaration index). -/
def create_proto_map (fields : List FieldDecl) : List (Nat × Nat) :=
  createProtoMapAux fields 0 1 []

/-! ### Wire types and keys -/

/-- Wire-type constants from `google.protobuf.internal.wire_format`. -/
def WIRETYPE_VARINT : Nat := 0

/-- Wire type of 64-bit fixed fields. -/
def WIRETYPE_FIXED64 : Nat := 1

/-- Wire type of length-delimited fields. -/
def WIRETYPE_LENGTH_DELIMITED : Nat := 2

/-- Strip one `Optional` wrapper: the `Union` unwrapping done at the top of
`get_wiretype_for_annotation`, `_encode_value` and `model_validate_proto`
(`Optional[T]` has exactly one non-`None` arm in the model, so the
`len(anns) != 1` failure arm is unreachable here). -/
def unwrapOpt : PType → PType
  | .tOpt t => t
  | t => t

/-- `ProtoModel.get_wiretype_for_annotation` (source name; shortened so the
Lean name stays readable).  On the model universe every case is covered, so
the final `ValueError` branch is unreachable and the function is total. -/
def get_wiretype (t : PType) : Nat :=
  match unwrapOpt t with
  | .tList _ => WIRETYPE_LENGTH_DELIMITED
  | .tMap _ _ => WIRETYPE_LENGTH_DELIMITED
  | .tInt => WIRETYPE_VARINT
  | .tBool => WIRETYPE_VARINT
  | .tEnum => WIRETYPE_VARINT
  | .tFloat => WIRETYPE_FIXED64
  | .tStr => WIRETYPE_LENGTH_DELIMITED
  | .tBytes => WIRETYPE_LENGTH_DELIMITED
  | .tMsg _ => WIRETYPE_LENGTH_DELIMITED
  | .tOpt _ => WIRETYPE_LENGTH_DELIMITED

/-- `ProtoModel.build_key`: `(field_number << 3) | wire_type` (the wire type
is below 8, so `|` is `+` on these operands). -/
def build_key (field_number : Nat) (t : PType) : Nat :=
  field_number * 8 + get_wiretype t

/-- The wire type is one of the three constants 0, 1, 2. -/
theorem get_wiretype_lt (t : PType) : get_wiretype t < 8 := by
  unfold get_wiretype
  split <;> simp [WIRETYPE_VARINT, WIRETYPE_FIXED64, WIRETYPE_LENGTH_DELIMITED]

/-! ### Encoder (`model_dump_proto` and helpers) -/

/-- Auxiliary size bound: picking one element (or the `vnone` default) out of
a value list never exceeds the size of the list.  Used for termination of the
mutually recursive encoder. -/
theorem sizeOf_getD_le (l : List PValue) : ∀ i : Nat, sizeOf (l[i]?.getD PValue.vnone) ≤ sizeOf l := by
  induction l with
  | nil =>
    intro i
    simp [PValue.vnone.sizeOf_spec]
  | cons x xs ih =>
    intro i
    cases i with
    | zero =>
      simp only [List.getElem?_cons_zero, Option.getD_some, List.cons.sizeOf_spec]
      omega
    | succ j =>
      have h1 := ih j
      simp only [List.getElem?_cons_succ, List.cons.sizeOf_spec]
      omega

/-- Lexicographic helper for the termination proofs below. -/
theorem lex_of_le {a b c d : Nat} (h1 : a ≤ c) (h2 : b < d) :
    Prod.Lex (· < ·) (· < ·) (a, b) (c, d) := by
  rcases lt_or_eq_of_le h1 with h | h
  · exact Prod.Lex.left _ _ h
  · subst h
    exact Prod.Lex.right _ h2

mutual
/-- `ProtoModel._encode_value` (`base.py` lines 55-93): encode one scalar or
nested-message value.  The `origin is list` / `origin is dict` arms raise
(`list[list[T]]` nesting is unsupported); a value whose shape does not match
the annotation would crash the Python interpreter (for example calling
`.model_dump_proto()` on an `int`), modelled as the final error arm. -/
def encode_value (v : PValue) (t0 : PType) : Except String (List Nat) :=
  match unwrapOpt t0, v with
  | .tList _, _ => .error "list[list[T]] or dict[...,list[T]] not supported by protobuf"
  | .tMap _ _, _ => .error "list[dict[T]] or dict[...,dict[T]] not supported by protobuf"
  | .tInt, .vint n => .ok (encodeVarint n)
  | .tEnum, .venum n => .ok (encodeVarint n)
  | .tBool, .vbool b => .ok (encodeVarint (if b then 1 else 0))
  | .tFloat, .vfloat bits => .ok (packLE64 bits)
  | .tStr, .vstr bs => .ok (encodeVarint bs.length ++ bs)
  | .tBytes, .vbytes bs => .ok (encodeVarint bs.length ++ bs)
  | .tMsg d, .vmsg vs => do
    let nested ← model_dump_proto d vs
    .ok (encodeVarint nested.length ++ nested)
  | _, _ => .error "Unsupported value type"
termination_by (sizeOf v, 0)

/-- Loop body of `ProtoModel.encode_list`: one `key ++ value` pair per
element, in list order (the "unpacked" repeated form). -/
def encodeListItems (key : Nat) (items : List PValue) (inner : PType) :
    Except String (List Nat) :=
  match items with
  | [] => .ok []
  | x :: xs => do
    let pay ← encode_value x inner
    let rest ← encodeListItems key xs inner
    .ok (encodeVarint key ++ pay ++ rest)
termination_by (sizeOf items, 0)

/-- Loop body of `ProtoModel.endode_dict` (source spelling): per pair, a
two-field sub-message (`key_key ++ key ++ value_key ++ value`) emitted as one
length-delimited element of the map's repeated field. -/
def encodeDictItems (key key_key value_key : Nat) (entries : List (PValue × PValue))
    (kt vt : PType) : Except String (List Nat) :=
  match entries with
  | [] => .ok []
  | (dk, dv) :: es => do
    let pk ← encode_value dk kt
    let pv ← encode_value dv vt
    let item := encodeVarint key_key ++ pk ++ encodeVarint value_key ++ pv
    let rest ← encodeDictItems key key_key value_key es kt vt
    .ok (encodeVarint key ++ encodeVarint item.length ++ item ++ rest)
termination_by (sizeOf entries, 0)

/-- `ProtoModel.encode_field` (`base.py` lines 118-127): route lists and
dicts to their loops (checked on the *unwrapped-free* annotation: `Optional`
wrappers fall through to the scalar path), otherwise emit `key ++ value`. -/
def encode_field (field_number : Nat) (v : PValue) (t : PType) :
    Except String (List Nat) :=
  match t, v with
  | .tList inner, .vlist xs => encodeListItems (build_key field_number t) xs inner
  | .tList _, _ => .error "TypeError: not iterable"
  | .tMap kt vt, .vmap es =>
    encodeDictItems (build_key field_number t)
      (1 * 8 + get_wiretype kt) (2 * 8 + get_wiretype vt) es kt vt
  | .tMap _ _, _ => .error "TypeError: not a dict"
  | t2, v2 => do
    let pay ← encode_value v2 t2
    .ok (encodeVarint (build_key field_number t2) ++ pay)
termination_by (sizeOf v, 1)

/-- Field loop of `ProtoModel.model_dump_proto` (`base.py` lines 146-157):
walk `create_proto_map().items()` in insertion order; skip a field whose
value is `None`, and skip a non-required field whose value equals its
declared default; otherwise append the field's encoding. -/
def dumpFields (pm : List (Nat × Nat)) (fields : List FieldDecl) (vals : List PValue) :
    Except String (List Nat) :=
  match pm with
  | [] => .ok []
  | (field_number, idx) :: rest =>
    let f := fields.getD idx dfltDecl
    let value := vals.getD idx .vnone
    if value = .vnone then dumpFields rest fields vals
    else if !f.required && value = f.dflt then dumpFields rest fields vals
    else do
      let seg ← encode_field field_number value f.ty
      let restBytes ← dumpFields rest fields vals
      .ok (seg ++ restBytes)
termination_by (sizeOf vals, 2 + pm.length)
decreasing_by
  all_goals simp_wf
  all_goals first
    | exact lex_of_le (sizeOf_getD_le vals idx) (by omega)
    | exact Prod.Lex.right _ (by omega)

/-- `ProtoModel.model_dump_proto` (`base.py` lines 142-159): serialize a
model instance (its field values in declaration order) to protobuf bytes. -/
def model_dump_proto (fields : List FieldDecl) (vals : List PValue) :
    Except String (List Nat) :=
  dumpFields (create_proto_map fields) fields vals
termination_by (sizeOf vals, 3 + (create_proto_map fields).length)
end

/-- Computation rule for `Except` bind on a success, used to evaluate the
codec inside proofs. -/
@[simp] theorem except_bind_ok {α β : Type} (a : α) (f : α → Except String β) :
    (Except.ok a : Except String α) >>= f = f a := rfl

/-- Computation rule for `Except` bind on an error. -/
@[simp] theorem except_bind_error {α β : Type} (e : String) (f : α → Except String β) :
    (Except.error e : Except String α) >>= f = Except.error e := rfl

/-! ### Record construction: pydantic validation (`cls(**field_values)`) -/

mutual
/-- Per-field validation/coercion performed by pydantic when
`model_validate_proto` finally runs `cls(**field_values)` (`base.py` line
291).  Record construction is delegated to pydantic, an external collaborator
of this repository per the spec; this models the slice of pydantic v2's lax
mode that the decoder can exercise and the repository's test suite relies
on: plain ints pass for `IntEnum` fields, ints 0/1 pass for `bool`, UTF-8
bytes pass for `str` (exercised by `tests/encoding_test.py` round-tripping
the `list[str]` field `hobbies`), model instances pass through unvalidated,
lists and dicts are validated elementwise, and any other shape mismatch is a
`ValidationError`. -/
def validateValue (t : PType) (v : PValue) : Except String PValue :=
  match t, v with
  | .tOpt _, .vnone => .ok .vnone
  | .tOpt t1, v1 => validateValue t1 v1
  | .tInt, .vint n => .ok (.vint n)
  | .tBool, .vbool b => .ok (.vbool b)
  | .tBool, .vint 0 => .ok (.vbool false)
  | .tBool, .vint 1 => .ok (.vbool true)
  | .tEnum, .venum n => .ok (.venum n)
  | .tEnum, .vint n => .ok (.venum n)
  | .tFloat, .vfloat bits => .ok (.vfloat bits)
  | .tStr, .vstr bs => .ok (.vstr bs)
  | .tStr, .vbytes bs => .ok (.vstr bs)
  | .tBytes, .vbytes bs => .ok (.vbytes bs)
  | .tMsg _, .vmsg vs => .ok (.vmsg vs)
  | .tList e, .vlist xs => do
    let ys ← validateList e xs
    .ok (.vlist ys)
  | .tMap kt vt, .vmap es => do
    let es2 ← validateEntries kt vt es
    .ok (.vmap es2)
  | _, _ => .error "ValidationError"
termination_by (sizeOf v, sizeOf t)

/-- Elementwise pydantic validation of a list value. -/
def validateList (e : PType) (xs : List PValue) : Except String (List PValue) :=
  match xs with
  | [] => .ok []
  | x :: rest => do
    let y ← validateValue e x
    let ys ← validateList e rest
    .ok (y :: ys)
termination_by (sizeOf xs, sizeOf e)

/-- Pairwise pydantic validation of a dict value. -/
def validateEntries (kt vt : PType) (es : List (PValue × PValue)) :
    Except String (List (PValue × PValue)) :=
  match es with
  | [] => .ok []
  | (k, v) :: rest => do
    let k2 ← validateValue kt k
    let v2 ← validateValue vt v
    let rest2 ← validateEntries kt vt rest
    .ok ((k2, v2) :: rest2)
termination_by (sizeOf es, sizeOf kt)
end

/-- Field-by-field record construction: a field present in `field_values` is
validated; a missing required field is pydantic's "Field required" error; a
missing optional field takes its declared default (pydantic does not
re-validate defaults).  `i` is the declaration index of the first field. -/
def constructFields (fields : List FieldDecl) (fv : List (Nat × PValue)) (i : Nat) :
    Except String (List PValue) :=
  match fields with
  | [] => .ok []
  | f :: fs =>
    match dictLookup fv i with
    | some v => do
      let v2 ← validateValue f.ty v
      let rest ← constructFields fs fv (i + 1)
      .ok (v2 :: rest)
    | none =>
      if f.required then .error "ValidationError: Field required"
      else do
        let rest ← constructFields fs fv (i + 1)
        .ok (f.dflt :: rest)

/-- `cls(**field_values)` at the end of `model_validate_proto`: build the
record from the accumulated field values. -/
def constructModel (fields : List FieldDecl) (fv : List (Nat × PValue)) :
    Except String PValue := do
  let vs ← constructFields fields fv 0
  .ok (.vmsg vs)

/-! ### Decoder (`model_validate_proto`, `base.py` lines 177-291) -/

/-- Accumulation section of the decode loop (`base.py` lines 278-289),
keyed by the declaration index `idx` (standing for `field_name`): a list
field appends `value` to its (possibly fresh) accumulated list; a map field
unpacks `value` as an `(entry_key, entry_value)` tuple — a Python
`TypeError` if it is not one — and inserts it, last write winning; any other
field just stores `value`.  `t` is the annotation after `Optional`
unwrapping, matching the `origin` the source branches on. -/
def accumulate (t : PType) (fv : List (Nat × PValue)) (idx : Nat) (value : PValue) :
    Except String (List (Nat × PValue)) :=
  match t with
  | .tList _ =>
    match (dictLookup fv idx).getD (.vlist []) with
    | .vlist xs => .ok (dictInsert fv idx (.vlist (xs ++ [value])))
    | _ => .error "AttributeError: append"
  | .tMap _ _ =>
    match value with
    | .ventry ek ev =>
      match (dictLookup fv idx).getD (.vmap []) with
      | .vmap m =>
        .ok (dictInsert fv idx (.vmap (dictInsert m (ek.getD .vnone) (ev.getD .vnone))))
      | _ => .error "TypeError: not a dict"
    | _ => .error "TypeError: cannot unpack"
  | _ => .ok (dictInsert fv idx value)

mutual
/-- Map-entry sub-loop (`base.py` lines 236-268): read sub-tags from the
entry payload; sub-field 1 sets `entry_key` (varint for VARINT keys, bytes
— UTF-8-decoded when the key type is `str` — for LENGTH_DELIMITED keys),
sub-field 2 sets `entry_value` (with a `bool` cast for bool values, an
8-byte double for FIXED64, and string/bytes/nested-message handling for
LENGTH_DELIMITED).  A sub-tag that matches no branch consumes nothing
beyond the tag itself.  Returns the `(entry_key, entry_value)` pair, either
side `none` when its sub-field never appeared. -/
def mapEntryLoop (kt vt : PType) (bs : List Nat) (ek ev : Option PValue) :
    Except String (Option PValue × Option PValue) :=
  match bs with
  | [] => .ok (ek, ev)
  | b :: tail =>
    let r := decode_varint (b :: tail)
    let entry_tag := r.1
    let r1 := r.2
    let efn := entry_tag / 8
    let ewt := entry_tag % 8
    if efn = 1 then
      if ewt = WIRETYPE_VARINT then
        let r2 := decode_varint r1
        mapEntryLoop kt vt r2.2 (some (.vint r2.1)) ev
      else if ewt = WIRETYPE_LENGTH_DELIMITED then
        let r2 := decode_varint r1
        let key_bytes := r2.2.take r2.1
        let k : PValue := match kt with
          | .tStr => .vstr key_bytes
          | _ => .vbytes key_bytes
        mapEntryLoop kt vt (r2.2.drop r2.1) (some k) ev
      else mapEntryLoop kt vt r1 ek ev
    else if efn = 2 then
      if ewt = WIRETYPE_VARINT then
        let r2 := decode_varint r1
        let v : PValue := match vt with
          | .tBool => .vbool (r2.1 != 0)
          | _ => .vint r2.1
        mapEntryLoop kt vt r2.2 ek (some v)
      else if ewt = WIRETYPE_FIXED64 then
        if r1.length < 8 then .error "struct.error: unpack requires 8 bytes"
        else mapEntryLoop kt vt (r1.drop 8) ek (some (.vfloat (unpackLE64 (r1.take 8))))
      else if ewt = WIRETYPE_LENGTH_DELIMITED then
        let r2 := decode_varint r1
        let value_bytes := r2.2.take r2.1
        let rest := r2.2.drop r2.1
        match vt with
        | .tStr => mapEntryLoop kt vt rest ek (some (.vstr value_bytes))
        | .tBytes => mapEntryLoop kt vt rest ek (some (.vbytes value_bytes))
        | .tMsg d => do
          let m ← model_validate_proto d value_bytes
          mapEntryLoop kt vt rest ek (some m)
        | _ => mapEntryLoop kt vt rest ek (some (.vbytes value_bytes))
      else mapEntryLoop kt vt r1 ek ev
    else mapEntryLoop kt vt r1 ek ev
termination_by (bs.length, 0)
decreasing_by
  all_goals simp_wf
  all_goals
    (apply Prod.Lex.left
     try simp only [List.length_drop, List.length_take]
     have h1 := decode_varint_length_lt b tail
     have h2 := decode_varint_length (decode_varint (b :: tail)).2
     have h3 : (b :: tail).length = tail.length + 1 := rfl
     omega)

/-- Main decode loop of `ProtoModel.model_validate_proto` (`base.py` lines
183-289): while unread bytes remain, read a tag varint, split it into field
number (`tag >> 3`) and wire type (`tag & 0x07`), reject field numbers
absent from `create_proto_map`, unwrap `Optional`, dispatch on the wire
type (VARINT decodes a varint with a `bool` cast; FIXED64 reads exactly 8
bytes as a little-endian double; LENGTH_DELIMITED reads a length varint and
that many bytes, interpreted per the annotation; anything else is
`Unsupported wire type`), then accumulate into `field_values`. -/
def validateLoop (fields : List FieldDecl) (bs : List Nat) (fv : List (Nat × PValue)) :
    Except String (List (Nat × PValue)) :=
  match bs with
  | [] => .ok fv
  | b :: tail =>
    let r := decode_varint (b :: tail)
    let tag := r.1
    let r1 := r.2
    let field_number := tag / 8
    let wire_type := tag % 8
    match dictLookup (create_proto_map fields) field_number with
    | none => .error "Unknown field number"
    | some idx =>
      let f := fields.getD idx dfltDecl
      let t := unwrapOpt f.ty
      if wire_type = WIRETYPE_VARINT then
        let r2 := decode_varint r1
        let value : PValue := match t with
          | .tBool => .vbool (r2.1 != 0)
          | _ => .vint r2.1
        do
          let fv2 ← accumulate t fv idx value
          validateLoop fields r2.2 fv2
      else if wire_type = WIRETYPE_FIXED64 then
        if r1.length < 8 then .error "struct.error: unpack requires 8 bytes"
        else do
          let fv2 ← accumulate t fv idx (.vfloat (unpackLE64 (r1.take 8)))
          validateLoop fields (r1.drop 8) fv2
      else if wire_type = WIRETYPE_LENGTH_DELIMITED then
        let r2 := decode_varint r1
        let data_bytes := r2.2.take r2.1
        let rest := r2.2.drop r2.1
        match t with
        | .tStr => do
          let fv2 ← accumulate t fv idx (.vstr data_bytes)
          validateLoop fields rest fv2
        | .tBytes => do
          let fv2 ← accumulate t fv idx (.vbytes data_bytes)
          validateLoop fields rest fv2
        | .tList inner =>
          (match inner with
          | .tMsg d => do
            let m ← model_validate_proto d data_bytes
            let fv2 ← accumulate t fv idx m
            validateLoop fields rest fv2
          | _ => do
            let fv2 ← accumulate t fv idx (.vbytes data_bytes)
            validateLoop fields rest fv2)
        | .tMap kt vt => do
          let p ← mapEntryLoop kt vt data_bytes none none
          let fv2 ← accumulate t fv idx (.ventry p.1 p.2)
          validateLoop fields rest fv2
        | .tMsg d => do
          let m ← model_validate_proto d data_bytes
          let fv2 ← accumulate t fv idx m
          validateLoop fields rest fv2
        | _ => do
          let fv2 ← accumulate t fv idx (.vbytes data_bytes)
          validateLoop fields rest fv2
      else .error "Unsupported wire type"
termination_by (bs.length, 1)
decreasing_by
  all_goals simp_wf
  all_goals
    (apply Prod.Lex.left
     try simp only [List.length_drop, List.length_take]
     have h1 := decode_varint_length_lt b tail
     have h2 := decode_varint_length (decode_varint (b :: tail)).2
     have h3 : (b :: tail).length = tail.length + 1 := rfl
     omega)

/-- `ProtoModel.model_validate_proto` (`base.py` lines 177-291): run the
decode loop over the whole buffer, then build the record from the
accumulated field values. -/
def model_validate_proto (fields : List FieldDecl) (data : List Nat) :
    Except String PValue := do
  let fv ← validateLoop fields data []
  constructModel fields fv
termination_by (data.length, 2)
decreasing_by
  all_goals exact Prod.Lex.right _ (by omega)
end

/-! ### Spec-side comparison definitions and example fixtures -/

/-- Positional walk that records, for each declared field in order, the wire
field number `create_proto_map` would assign it: the override when
`json_schema_extra` carries a `"proto_index"`, otherwise the running
`default_index` (which advances for every field). -/
def protoNumsAux : List FieldDecl → Nat → List Nat
  | [], _ => []
  | f :: fs, default_index =>
    (match f.meta with
      | some (some k) => k
      | _ => default_index) :: protoNumsAux fs (default_index + 1)

/-- Field numbers assigned to the declared fields, in declaration order. -/
def protoNums (fields : List FieldDecl) : List Nat :=
  protoNumsAux fields 1

/-- Insertion step of a by-field-number insertion sort. -/
def insertSorted (p : Nat × Nat) : List (Nat × Nat) → List (Nat × Nat)
  | [] => [p]
  | q :: rest => if p.1 ≤ q.1 then p :: q :: rest else q :: insertSorted p rest

/-- Insertion sort of schema entries by field number. -/
def sortByNum : List (Nat × Nat) → List (Nat × Nat)
  | [] => []
  | p :: rest => insertSorted p (sortByNum rest)

/-- Modelled from the spec: "iterate fields in ascending field-number
order" (spec 4.4).  Identical to `model_dump_proto` except that the schema
entries are visited sorted by field number rather than in `proto_map`
insertion order.  Used only to compare the source encoder against the
spec's stated ordering. -/
def model_dump_proto_sorted (fields : List FieldDecl) (vals : List PValue) :
    Except String (List Nat) :=
  dumpFields (sortByNum (create_proto_map fields)) fields vals

/-- Fixture: `{id: int, name: str}` — both required, no overrides
(Scenario A of the spec). -/
def exIntStr : List FieldDecl :=
  [.mk none .tInt true .vnone, .mk none .tStr true .vnone]

/-- Fixture: a single required `int` field at number 1. -/
def exIntReq : List FieldDecl := [.mk none .tInt true .vnone]

/-- Fixture: a single required `bytes` field at number 1. -/
def exBytesReq : List FieldDecl := [.mk none .tBytes true .vnone]

/-- Fixture: a single required `list[int]` field at number 1. -/
def exListInt : List FieldDecl := [.mk none (.tList .tInt) true (.vlist [])]

/-- Fixture: a single required `dict[str, int]` field at number 1. -/
def exMapStrInt : List FieldDecl := [.mk none (.tMap .tStr .tInt) true (.vmap [])]

/-- Fixture: a field declaring `json_schema_extra` as a dict without a
`"proto_index"` key. -/
def exDropped : List FieldDecl := [.mk (some none) .tInt true .vnone]

/-- Fixture: first field overridden to number 5, second field positional
(getting number 2 because the counter advances over the first field too). -/
def exOverride : List FieldDecl :=
  [.mk (some (some 5)) .tInt true .vnone, .mk none .tInt true .vnone]

end Protodantic

namespace Protodantic

/-! ### The supported fragment: values the round trip preserves -/


/-- Kinds encoded as plain scalars. -/
def scalarKind : PType → Bool
  | .tInt | .tBool | .tEnum | .tFloat | .tStr | .tBytes => true
  | _ => false

/-- Message kinds. -/
def isMsg : PType → Bool
  | .tMsg _ => true
  | _ => false

/-- List element kinds whose encoded wire form the decoder reads back. -/
def elemOk : PType → Bool
  | .tStr | .tBytes | .tMsg _ => true
  | _ => false

/-- Map key kinds the decoder's entry loop reads back. -/
def keyOk : PType → Bool
  | .tInt | .tEnum | .tStr | .tBytes => true
  | _ => false

/-- Map value kinds the decoder's entry loop reads back. -/
def valOk (t : PType) : Bool := scalarKind t || isMsg t

/-- Schema sanity: no field is dropped by `create_proto_map` and the
assigned field numbers collide nowhere. -/
def schemaOkB (fields : List FieldDecl) : Bool :=
  fields.all (fun f => f.meta ≠ some none) && decide (protoNums fields).Nodup

/-- Map keys pairwise distinct, as Python dict keys are. -/
def entryKeysNodup (es : List (PValue × PValue)) : Bool :=
  decide (es.map Prod.fst).Nodup

/-- Size bound used for termination of `fieldOk`. -/
theorem sizeOf_ty_lt (f : FieldDecl) : sizeOf f.ty < sizeOf f := by
  cases f with
  | mk m t r d =>
    simp [FieldDecl.ty]
    omega

mutual
/-- Values that survive the encode/decode round trip, per type. -/
def supported : PType → PValue → Bool
  | .tInt, .vint _ => true
  | .tBool, .vbool _ => true
  | .tEnum, .venum _ => true
  | .tFloat, .vfloat bits => bits < 18446744073709551616
  | .tStr, .vstr _ => true
  | .tBytes, .vbytes _ => true
  | .tOpt t, .vnone => scalarKind t || isMsg t
  | .tOpt t, v => (scalarKind t || isMsg t) && supported t v
  | .tList e, .vlist xs => elemOk e && supportedList e xs
  | .tMap kt vt, .vmap es =>
    keyOk kt && valOk vt && supportedEntries kt vt es && entryKeysNodup es
  | .tMsg d, .vmsg vs => supportedMsg d vs
  | _, _ => false
termination_by t v => (sizeOf v, sizeOf t)

/-- Elementwise `supported`. -/
def supportedList (e : PType) : List PValue → Bool
  | [] => true
  | x :: xs => supported e x && supportedList e xs
termination_by xs => (sizeOf xs, sizeOf e)

/-- Pairwise `supported` on map entries. -/
def supportedEntries (kt vt : PType) : List (PValue × PValue) → Bool
  | [] => true
  | (k, v) :: es => supported kt k && supported vt v && supportedEntries kt vt es
termination_by es => (sizeOf es, sizeOf kt)

/-- A record value that round-trips: sane schema and per-field conditions. -/
def supportedMsg (d : List FieldDecl) (vs : List PValue) : Bool :=
  schemaOkB d && supportedFields d vs
termination_by (sizeOf vs, sizeOf d + 1)

/-- Declared fields and their values, in lockstep. -/
def supportedFields : List FieldDecl → List PValue → Bool
  | [], [] => true
  | f :: fs, v :: vs => fieldOk f v && supportedFields fs vs
  | _, _ => false
termination_by fs vs => (sizeOf vs, sizeOf fs)

/-- Per-field round-trip condition: a `None` value needs an optional field
defaulting to `None` (it is skipped and refilled); a non-required value equal
to its default is skipped and refilled; any other value must be of a
supported shape and must not be an empty list/map (those encode to zero
bytes and cannot be distinguished from an absent field). -/
def fieldOk (f : FieldDecl) (v : PValue) : Bool :=
  if v = .vnone then !f.required && (f.dflt = .vnone)
  else if !f.required && v = f.dflt then true
  else supported f.ty v && !(v = .vlist []) && !(v = .vmap [])
termination_by (sizeOf v, sizeOf f)
decreasing_by
  exact Prod.Lex.right _ (sizeOf_ty_lt f)
end

/-- Wire image, inside the decode loop, of a supported list element: `str`
elements come back as raw bytes (pydantic re-decodes them at construction),
`bytes` and nested messages come back as themselves. -/
def rawElem (e : PType) (v : PValue) : PValue :=
  match e, v with
  | .tStr, .vstr bs => .vbytes bs
  | _, _ => v

/-- Wire image of a supported map key: enum members come back as plain
ints. -/
def rawKey (kt : PType) (v : PValue) : PValue :=
  match kt, v with
  | .tEnum, .venum n => .vint n
  | _, _ => v

/-- Wire image of a supported map value. -/
def rawVal (vt : PType) (v : PValue) : PValue :=
  match vt, v with
  | .tEnum, .venum n => .vint n
  | _, _ => v

/-- Wire image of a whole field value as accumulated by the decode loop,
before `cls(**field_values)` re-validates it. -/
def rawField (t : PType) (v : PValue) : PValue :=
  match unwrapOpt t, v with
  | .tEnum, .venum n => .vint n
  | .tList e, .vlist xs => .vlist (xs.map (rawElem e))
  | .tMap kt vt, .vmap es => .vmap (es.map (fun p => (rawKey kt p.1, rawVal vt p.2)))
  | _, _ => v

/-- Round-trip statement at bounded size, used as the induction hypothesis
through the mutually recursive value structure. -/
def RT (N : Nat) : Prop :=
  ∀ (d : List FieldDecl) (vs : List PValue), sizeOf vs < N →
    supportedMsg d vs = true →
    ∃ out, model_dump_proto d vs = .ok out ∧ model_validate_proto d out = .ok (.vmsg vs)

/-- The entries added to `field_values` by decoding the segments that
`dumpFields` emits for the given schema entries. -/
def accumEntries (fields : List FieldDecl) (vals : List PValue)
    (entries : List (Nat × Nat)) : List (Nat × PValue) :=
  entries.filterMap (fun p =>
    if vals.getD p.2 .vnone = .vnone then none
    else if !(fields.getD p.2 dfltDecl).required
        && vals.getD p.2 .vnone = (fields.getD p.2 dfltDecl).dflt then none
    else some (p.2, rawField (fields.getD p.2 dfltDecl).ty (vals.getD p.2 .vnone)))

/-- Per-index filter the decode loop effectively applies to an
encoder-produced buffer: the entry stored for declaration index `i`, if
any. -/
def skipF (fields : List FieldDecl) (vals : List PValue) (i : Nat) :
    Option (Nat × PValue) :=
  if vals.getD i .vnone = .vnone then none
  else if !(fields.getD i dfltDecl).required
      && vals.getD i .vnone = (fields.getD i dfltDecl).dflt then none
  else some (i, rawField (fields.getD i dfltDecl).ty (vals.getD i .vnone))

end Protodantic

namespace Protodantic

/-- C8: the record {id=42 at field number 1 of kind int, name="Alice" at
field number 2 of kind str} encodes exactly to 0x08 0x2A, then 0x12 0x05 and
the five UTF-8 bytes of "Alice". -/
theorem c8_scenario_a :
    model_dump_proto exIntStr [.vint 42, .vstr [65, 108, 105, 99, 101]]
      = .ok [8, 42, 18, 5, 65, 108, 105, 99, 101] := by
  simp [model_dump_proto, dumpFields, create_proto_map, createProtoMapAux, exIntStr,
    FieldDecl.meta, dictInsert, encode_field, encode_value, build_key, get_wiretype, unwrapOpt,
    FieldDecl.ty, FieldDecl.required, FieldDecl.dflt, dfltDecl, encodeVarint,
    WIRETYPE_VARINT, WIRETYPE_FIXED64, WIRETYPE_LENGTH_DELIMITED]

/-- C2 counterexample: the buffer [0x08, 0x80] ends mid-varint (the last
byte has its continuation bit set), yet decoding raises no error: the field
silently decodes to 0. -/
theorem c2_counterexample :
    model_validate_proto exIntReq [8, 128] = .ok (.vmsg [.vint 0]) := by
  simp [model_validate_proto, validateLoop, decode_varint, decodeVarintAux, create_proto_map,
    createProtoMapAux, exIntReq, FieldDecl.meta, dictInsert, dictLookup, List.find?,
    accumulate, unwrapOpt, FieldDecl.ty, dfltDecl, constructModel, constructFields,
    validateValue, WIRETYPE_VARINT, WIRETYPE_FIXED64, WIRETYPE_LENGTH_DELIMITED]

theorem c2_amended_aux (bs : List Nat) (h : ∀ x ∈ bs, 128 ≤ x ∧ x < 256) :
    ∀ (shift acc : Nat), decodeVarintAux bs shift acc
      = (acc + (bs.foldr (fun b acc2 => b % 128 + 128 * acc2) 0) * 2 ^ shift, []) := by
  induction bs with
  | nil => intro shift acc; simp [decodeVarintAux]
  | cons b rest ih =>
    intro shift acc
    obtain ⟨hb1, hb2⟩ := h b (by simp)
    have hmod : b % 256 = b := Nat.mod_eq_of_lt hb2
    simp only [decodeVarintAux, hmod, List.foldr_cons]
    rw [if_neg (by omega)]
    rw [ih (fun x hx => h x (by simp [hx]))]
    have h4 : (2 : Nat) ^ (shift + 7) = 2 ^ shift * 128 := by
      rw [pow_add]; norm_num
    rw [h4]
    congr 1
    ring

/-- C2 (amended): on an input exhausted mid-varint (every byte has its
continuation bit set), `_decode_varint` does not fail: it silently returns
the partial accumulator built from the payload bits consumed so far, with
nothing left unread.  No TruncatedInput error path exists in the code. -/
theorem c2_amended (bs : List Nat) (h : ∀ x ∈ bs, 128 ≤ x ∧ x < 256) :
    decode_varint bs = (bs.foldr (fun b acc2 => b % 128 + 128 * acc2) 0, []) := by
  simpa [decode_varint] using c2_amended_aux bs h 0 0

/-- Witness for `c2_amended` on the two-byte all-continuation input
[0x80, 0x82]. -/
theorem c2_witness :
    (∀ x ∈ ([128, 130] : List Nat), 128 ≤ x ∧ x < 256) ∧
      decode_varint [128, 130] = (256, []) :=
  ⟨by decide, by simpa using c2_amended [128, 130] (by decide)⟩

/-- C3 counterexample: a declared length of 5 with only one payload byte
remaining decodes without error to the one-byte (truncated) value. -/
theorem c3_counterexample :
    model_validate_proto exBytesReq [10, 5, 97] = .ok (.vmsg [.vbytes [97]]) := by
  simp [model_validate_proto, validateLoop, decode_varint, decodeVarintAux, create_proto_map,
    createProtoMapAux, exBytesReq, FieldDecl.meta, dictInsert, dictLookup, List.find?,
    accumulate, unwrapOpt, FieldDecl.ty, dfltDecl, constructModel, constructFields,
    validateValue, WIRETYPE_VARINT, WIRETYPE_FIXED64, WIRETYPE_LENGTH_DELIMITED]

/-- C3 (amended): when a length-delimited field's declared length `L`
exceeds the remaining bytes, `model_validate_proto` performs a short read
(Python `stream.read` semantics) and returns the truncated payload as the
field value; there is no bounds check and no TruncatedInput error. -/
theorem c3_amended (L : Nat) (payload : List Nat) (h : payload.length < L) :
    model_validate_proto exBytesReq (10 :: (encodeVarint L ++ payload))
      = .ok (.vmsg [.vbytes payload]) := by
  have ht : payload.take L = payload := List.take_of_length_le (le_of_lt h)
  have hd : payload.drop L = [] := List.drop_eq_nil_of_le (le_of_lt h)
  have he := decode_varint_encode L payload
  have h10 : decode_varint (10 :: (encodeVarint L ++ payload)) = (10, encodeVarint L ++ payload) := by
    simp [decode_varint, decodeVarintAux]
  simp [model_validate_proto, validateLoop, create_proto_map,
    createProtoMapAux, exBytesReq, FieldDecl.meta, dictInsert, dictLookup, List.find?,
    accumulate, unwrapOpt, FieldDecl.ty, dfltDecl, constructModel, constructFields,
    validateValue, WIRETYPE_VARINT, WIRETYPE_FIXED64, WIRETYPE_LENGTH_DELIMITED,
    h10, ht, hd, he]

/-- C7: a tag whose field number is absent from `create_proto_map` makes
`model_validate_proto` fail at once with "Unknown field number", whatever
bytes follow the tag — no partial result, no further decoding. -/
theorem c7_unknown_field (fields : List FieldDecl) (b : Nat) (tail : List Nat)
    (h : dictLookup (create_proto_map fields) ((decode_varint (b :: tail)).1 / 8) = none) :
    model_validate_proto fields (b :: tail) = .error "Unknown field number" := by
  rw [model_validate_proto]
  rw [validateLoop]
  simp [h]

end Protodantic

namespace Protodantic

theorem createProtoMapAux_eq (fields : List FieldDecl) :
    ∀ (idx0 di : Nat) (acc : List (Nat × Nat)),
    (∀ f ∈ fields, f.meta ≠ some none) →
    (protoNumsAux fields di).Nodup →
    (∀ p ∈ acc, p.1 ∉ protoNumsAux fields di) →
    createProtoMapAux fields idx0 di acc
      = acc ++ (protoNumsAux fields di).zip (List.range' idx0 fields.length) := by
  induction fields with
  | nil => intro idx0 di acc _ _ _; simp [createProtoMapAux, protoNumsAux]
  | cons f fs ih =>
    intro idx0 di acc hmeta hnodup hfresh
    match hf : f.meta with
    | some none => exact absurd hf (hmeta f (by simp))
    | some (some k) =>
      have hnums : protoNumsAux (f :: fs) di = k :: protoNumsAux fs (di + 1) := by
        simp [protoNumsAux, hf]
      rw [hnums] at hnodup hfresh
      have hins : dictInsert acc k idx0 = acc ++ [(k, idx0)] :=
        dictInsert_fresh acc k idx0 (fun p hp => by
          have := hfresh p hp
          simp at this
          exact fun hc => this.1 hc)
      have hrec := ih (idx0 + 1) (di + 1) (acc ++ [(k, idx0)])
        (fun g hg => hmeta g (by simp [hg]))
        (List.Nodup.of_cons hnodup)
        (fun p hp => by
          rcases List.mem_append.mp hp with hpa | hpb
          · have := hfresh p hpa
            simp at this
            exact this.2
          · simp at hpb
            subst hpb
            simp
            exact (List.nodup_cons.mp hnodup).1)
      simp only [createProtoMapAux, hf, hins, hrec, hnums]
      simp [List.range', List.zip]
    | none =>
      have hnums : protoNumsAux (f :: fs) di = di :: protoNumsAux fs (di + 1) := by
        simp [protoNumsAux, hf]
      rw [hnums] at hnodup hfresh
      have hins : dictInsert acc di idx0 = acc ++ [(di, idx0)] :=
        dictInsert_fresh acc di idx0 (fun p hp => by
          have := hfresh p hp
          simp at this
          exact fun hc => this.1 hc)
      have hrec := ih (idx0 + 1) (di + 1) (acc ++ [(di, idx0)])
        (fun g hg => hmeta g (by simp [hg]))
        (List.Nodup.of_cons hnodup)
        (fun p hp => by
          rcases List.mem_append.mp hp with hpa | hpb
          · have := hfresh p hpa
            simp at this
            exact this.2
          · simp at hpb
            subst hpb
            simp
            exact (List.nodup_cons.mp hnodup).1)
      simp only [createProtoMapAux, hf, hins, hrec, hnums]
      simp [List.range', List.zip]

/-- C5 (amended): schema resolution assigns the override when present,
else the 1-based declaration position, the positional counter advancing for
every field — but only under the proviso that no field carries a dict-valued
`json_schema_extra` lacking "proto_index" (such fields are silently dropped
from the schema, so not every declared field appears), and the resulting map
keeps all fields only when the assigned numbers are pairwise distinct (a
colliding number overwrites the earlier field's entry in place). -/
theorem c5_amended (fields : List FieldDecl)
    (hmeta : ∀ f ∈ fields, f.meta ≠ some none)
    (hnodup : (protoNums fields).Nodup) :
    create_proto_map fields = (protoNums fields).zip (List.range fields.length) := by
  have h := createProtoMapAux_eq fields 0 1 [] hmeta hnodup (by simp)
  simpa [create_proto_map, protoNums, List.range_eq_range'] using h

/-- C5 counterexample: a field whose `json_schema_extra` is a dict without
"proto_index" is dropped — the resulting schema is empty, so not every
declared field appears in it. -/
theorem c5_counterexample : create_proto_map exDropped = [] := rfl

/-- Witness for `c5_amended` on a two-field record with an override on the
first field: numbers [5, 2], the counter having advanced over field one. -/
theorem c5_witness :
    ((∀ f ∈ exOverride, f.meta ≠ some none) ∧ (protoNums exOverride).Nodup) ∧
      create_proto_map exOverride = [(5, 0), (2, 1)] := by
  refine ⟨⟨by decide, by decide⟩, ?_⟩
  have h := c5_amended exOverride (by decide) (by decide)
  simpa [protoNums, protoNumsAux, exOverride, FieldDecl.meta, List.range, List.range',
    List.zip] using h

end Protodantic

namespace Protodantic

theorem protoNumsAux_all_none (fields : List FieldDecl)
    (hmeta : ∀ f ∈ fields, f.meta = none) :
    ∀ di, protoNumsAux fields di = List.range' di fields.length := by
  induction fields with
  | nil => intro di; simp [protoNumsAux, List.range']
  | cons f fs ih =>
    intro di
    have hf : f.meta = none := hmeta f (by simp)
    simp only [protoNumsAux, hf, List.length_cons]
    rw [ih (fun g hg => hmeta g (by simp [hg])) (di + 1)]
    rfl

theorem chain_lt_range' (n : Nat) : ∀ s, List.Chain' (· < ·) (List.range' s n) := by
  induction n with
  | zero => intro s; simp [List.range']
  | succ m ih =>
    intro s
    cases m with
    | zero => simp [List.range']
    | succ k =>
      have h := ih (s + 1)
      rw [show List.range' s (k + 1 + 1) = s :: List.range' (s + 1) (k + 1) from rfl]
      rw [show List.range' (s + 1) (k + 1) = (s + 1) :: List.range' (s + 2) k from rfl] at h ⊢
      exact List.Chain'.cons (by omega) h

/-- C4 (amended): the encoder iterates `proto_map` in insertion order, not
sorted order; the emitted fields are in ascending field-number order only
when no field carries an override, insertion order then coinciding with
ascending numbers 1..n. -/
theorem c4_amended (fields : List FieldDecl) (hmeta : ∀ f ∈ fields, f.meta = none) :
    (create_proto_map fields).map Prod.fst = List.range' 1 fields.length ∧
    List.Chain' (· < ·) ((create_proto_map fields).map Prod.fst) := by
  have hnums : protoNums fields = List.range' 1 fields.length :=
    protoNumsAux_all_none fields hmeta 1
  have hnodup : (protoNums fields).Nodup := by
    rw [hnums]
    apply List.nodup_range'
    norm_num
  have h := createProtoMapAux_eq fields 0 1 []
    (fun f hf => by simp [hmeta f hf]) hnodup (by simp)
  have hcpm : create_proto_map fields
      = (protoNums fields).zip (List.range' 0 fields.length) := by
    simpa [create_proto_map, protoNums] using h
  have hfst : (create_proto_map fields).map Prod.fst = protoNums fields := by
    rw [hcpm]
    exact List.map_fst_zip _ _ (by simp [hnums])
  refine ⟨by rw [hfst, hnums], ?_⟩
  rw [hfst, hnums]
  exact chain_lt_range' fields.length 1

/-- C4 counterexample: with field one overridden to number 5, the encoder
emits field 5's segment before field 2's (insertion order), while the
spec-modelled ascending-number encoder emits field 2 first. -/
theorem c4_counterexample :
    model_dump_proto exOverride [.vint 1, .vint 2] = .ok [40, 1, 16, 2] ∧
      model_dump_proto_sorted exOverride [.vint 1, .vint 2] = .ok [16, 2, 40, 1] := by
  constructor <;>
    simp [model_dump_proto, model_dump_proto_sorted, dumpFields, create_proto_map,
      createProtoMapAux, exOverride, FieldDecl.meta, dictInsert, sortByNum, insertSorted,
      encode_field, encode_value, build_key, get_wiretype, unwrapOpt, FieldDecl.ty,
      FieldDecl.required, FieldDecl.dflt, dfltDecl, encodeVarint,
      WIRETYPE_VARINT, WIRETYPE_FIXED64, WIRETYPE_LENGTH_DELIMITED]

/-- C6 counterexample: an INT-declared field arriving as FIXED64 is read
as an 8-byte double, and arriving as LENGTH_DELIMITED as raw bytes — no
WireTypeMismatch error in either case. -/
theorem c6_counterexample :
    validateLoop exIntReq [9, 0, 0, 0, 0, 0, 0, 0, 64] []
        = .ok [(0, .vfloat 4611686018427387904)] ∧
      validateLoop exIntReq [10, 1, 65] [] = .ok [(0, .vbytes [65])] := by
  constructor <;>
    simp [validateLoop, decode_varint, decodeVarintAux, create_proto_map, createProtoMapAux,
      exIntReq, FieldDecl.meta, dictInsert, dictLookup, List.find?, accumulate, unwrapOpt,
      FieldDecl.ty, dfltDecl, unpackLE64,
      WIRETYPE_VARINT, WIRETYPE_FIXED64, WIRETYPE_LENGTH_DELIMITED]

/-- C6 (amended): the decode loop dispatches purely on the arriving wire
type: an INT-declared field arriving as FIXED64 decodes without error to a
float (the 8 payload bytes as a little-endian double) and arriving as
LENGTH_DELIMITED to the raw payload bytes.  No WireTypeMismatch error path
exists in the code. -/
theorem c6_amended (payload : List Nat) (h : payload.length = 8) :
    validateLoop exIntReq (9 :: payload) [] = .ok [(0, .vfloat (unpackLE64 payload))] ∧
      validateLoop exIntReq (10 :: (encodeVarint payload.length ++ payload)) []
        = .ok [(0, .vbytes payload)] := by
  have ht8 : payload.take 8 = payload := List.take_of_length_le (by omega)
  have hd8 : payload.drop 8 = [] := List.drop_eq_nil_of_le (by omega)
  have h9 : decode_varint (9 :: payload) = (9, payload) := by
    simp [decode_varint, decodeVarintAux]
  have h10 : decode_varint (10 :: (encodeVarint payload.length ++ payload))
      = (10, encodeVarint payload.length ++ payload) := by
    simp [decode_varint, decodeVarintAux]
  have he := decode_varint_encode payload.length payload
  rw [h] at h10 he
  constructor <;>
    simp [validateLoop, create_proto_map, createProtoMapAux,
      exIntReq, FieldDecl.meta, dictInsert, dictLookup, List.find?, accumulate, unwrapOpt,
      FieldDecl.ty, dfltDecl, h9, h10, he, ht8, hd8, h,
      WIRETYPE_VARINT, WIRETYPE_FIXED64, WIRETYPE_LENGTH_DELIMITED]

/-- C10: a map-entry payload with no sub-field 1 decodes without error to
an entry whose key is `None`, and one with no sub-field 2 to an entry whose
value is `None`. -/
theorem c10_map_entry_null (n : Nat) :
    validateLoop exMapStrInt
        (10 :: (encodeVarint (16 :: encodeVarint n).length ++ (16 :: encodeVarint n))) []
        = .ok [(0, .vmap [(.vnone, .vint n)])] ∧
      validateLoop exMapStrInt [10, 3, 10, 1, 97] []
        = .ok [(0, .vmap [(.vstr [97], .vnone)])] := by
  have h10 : decode_varint
      (10 :: (encodeVarint (16 :: encodeVarint n).length ++ (16 :: encodeVarint n)))
      = (10, encodeVarint (16 :: encodeVarint n).length ++ (16 :: encodeVarint n)) := by
    simp [decode_varint, decodeVarintAux]
  have he := decode_varint_encode (16 :: encodeVarint n).length (16 :: encodeVarint n)
  have h16 : decode_varint (16 :: encodeVarint n) = (16, encodeVarint n) := by
    simp [decode_varint, decodeVarintAux]
  have hn : decode_varint (encodeVarint n) = (n, []) := by
    simpa using decode_varint_encode n []
  constructor
  · rw [validateLoop]
    simp only [h10, he, h16, hn, List.take_length, List.drop_length]
    simp only [create_proto_map, createProtoMapAux, exMapStrInt, FieldDecl.meta, dictInsert,
      dictLookup, List.find?, unwrapOpt, FieldDecl.ty, dfltDecl,
      WIRETYPE_VARINT, WIRETYPE_FIXED64, WIRETYPE_LENGTH_DELIMITED]
    norm_num
    rw [mapEntryLoop]
    simp only [h16, hn]
    norm_num
    rw [mapEntryLoop]
    simp [accumulate, dictLookup, dictInsert, validateLoop, mapEntryLoop,
      WIRETYPE_VARINT, WIRETYPE_FIXED64, WIRETYPE_LENGTH_DELIMITED]
  · simp [validateLoop, mapEntryLoop, decode_varint, decodeVarintAux, create_proto_map,
      createProtoMapAux, exMapStrInt, FieldDecl.meta, dictInsert, dictLookup, List.find?,
      accumulate, unwrapOpt, FieldDecl.ty, dfltDecl,
      WIRETYPE_VARINT, WIRETYPE_FIXED64, WIRETYPE_LENGTH_DELIMITED]

end Protodantic

namespace Protodantic

theorem encodeVarint_ne_nil (n : Nat) : encodeVarint n ≠ [] := by
  rw [encodeVarint]
  split <;> simp

theorem bind_eq_ok {α β : Type} {x : Except String α} {f : α → Except String β} {b : β}
    (h : x >>= f = .ok b) : ∃ a, x = .ok a ∧ f a = .ok b := by
  cases x with
  | error e => simp at h
  | ok a => exact ⟨a, rfl, by simpa using h⟩

theorem encode_value_vlist_ne_ok :
    ∀ (t : PType) (xs : List PValue) (pay : List Nat), encode_value (.vlist xs) t ≠ .ok pay := by
  intro t xs pay h
  cases t
  case tOpt i => cases i <;> simp [encode_value.eq_def, unwrapOpt] at h
  all_goals simp [encode_value.eq_def, unwrapOpt] at h

theorem encode_value_vmap_ne_ok :
    ∀ (t : PType) (es : List (PValue × PValue)) (pay : List Nat),
      encode_value (.vmap es) t ≠ .ok pay := by
  intro t es pay h
  cases t
  case tOpt i => cases i <;> simp [encode_value.eq_def, unwrapOpt] at h
  all_goals simp [encode_value.eq_def, unwrapOpt] at h

theorem encode_field_catchall_nil_iff (fn : Nat) (v : PValue) (t : PType) (seg : List Nat)
    (hstep : (do
        let pay ← encode_value v t
        Except.ok (encodeVarint (build_key fn t) ++ pay)) = Except.ok seg) :
    (seg = [] ↔ v = .vlist [] ∨ v = .vmap []) := by
  obtain ⟨pay, h1, h2⟩ := bind_eq_ok hstep
  simp only [Except.ok.injEq] at h2
  constructor
  · intro hnil
    rw [← h2] at hnil
    simp [encodeVarint_ne_nil] at hnil
  · intro hc
    rcases hc with hc | hc
    · subst hc
      exact absurd h1 (encode_value_vlist_ne_ok t [] pay)
    · subst hc
      exact absurd h1 (encode_value_vmap_ne_ok t [] pay)

theorem encode_field_eq_nil_iff (fn : Nat) (v : PValue) (t : PType) (seg : List Nat)
    (h : encode_field fn v t = .ok seg) :
    (seg = [] ↔ v = .vlist [] ∨ v = .vmap []) := by
  cases t
  case tList inner =>
    cases v
    case vlist xs =>
      simp only [encode_field.eq_def] at h
      cases xs with
      | nil =>
        rw [encodeListItems] at h
        simp at h
        simp [← h]
      | cons x rest =>
        rw [encodeListItems] at h
        obtain ⟨pay, h1, h'⟩ := bind_eq_ok h
        obtain ⟨tailseg, h2, h3⟩ := bind_eq_ok h'
        simp only [Except.ok.injEq] at h3
        constructor
        · intro hnil
          rw [← h3] at hnil
          simp [encodeVarint_ne_nil] at hnil
        · intro hc
          rcases hc with hc | hc <;> simp at hc
    all_goals simp [encode_field.eq_def] at h
  case tMap kt vt =>
    cases v
    case vmap es =>
      simp only [encode_field.eq_def] at h
      cases es with
      | nil =>
        rw [encodeDictItems] at h
        simp at h
        simp [← h]
      | cons e rest =>
        rcases e with ⟨dk, dv⟩
        rw [encodeDictItems] at h
        obtain ⟨pk, h1, h'⟩ := bind_eq_ok h
        obtain ⟨pv, h2, h''⟩ := bind_eq_ok h'
        obtain ⟨tailseg, h3, h4⟩ := bind_eq_ok h''
        simp only [Except.ok.injEq] at h4
        constructor
        · intro hnil
          rw [← h4] at hnil
          simp [encodeVarint_ne_nil] at hnil
        · intro hc
          rcases hc with hc | hc <;> simp at hc
    all_goals simp [encode_field.eq_def] at h
  all_goals
    simp only [encode_field.eq_def] at h
  all_goals
    exact encode_field_catchall_nil_iff fn v _ seg h

end Protodantic

namespace Protodantic

/-- C9 (amended): for a single-field record, the encoder emits nothing iff
the value is `None`, or the field is optional with the value equal to its
declared default, or the value is an empty list or empty map — the latter
two regardless of the field being required, contradicting "non-optional
fields are always emitted".  Decoding an empty buffer does reproduce an
optional field's declared default. -/
theorem c9_amended (f : FieldDecl) (v : PValue) (out : List Nat)
    (hm : f.meta = none)
    (h : model_dump_proto [f] [v] = .ok out) :
    ((out = [] ↔ v = .vnone ∨ (f.required = false ∧ v = f.dflt) ∨ v = .vlist [] ∨ v = .vmap [])
      ∧ (f.required = false → model_validate_proto [f] [] = .ok (.vmsg [f.dflt]))) := by
  have hpm : create_proto_map [f] = [(1, 0)] := by
    simp [create_proto_map, createProtoMapAux, hm, dictInsert]
  have hnil : dumpFields ([] : List (Nat × Nat)) [f] [v] = .ok [] := by
    rw [dumpFields]
  rw [model_dump_proto, hpm] at h
  rw [dumpFields] at h
  simp only [List.getD, List.get?_cons_zero, Option.getD_some] at h
  refine ⟨?_, fun hreq => ?_⟩
  · by_cases hv1 : v = PValue.vnone
    · rw [if_pos hv1, hnil] at h
      simp only [Except.ok.injEq] at h
      subst h
      simp [hv1]
    · rw [if_neg hv1] at h
      by_cases hv2 : (!f.required && decide (v = f.dflt)) = true
      · rw [if_pos hv2, hnil] at h
        simp only [Except.ok.injEq] at h
        subst h
        simp only [Bool.and_eq_true, Bool.not_eq_true', decide_eq_true_eq] at hv2
        simp [hv2]
      · rw [if_neg hv2] at h
        obtain ⟨seg, hseg, h2⟩ := bind_eq_ok h
        obtain ⟨restb, hrest, h3⟩ := bind_eq_ok h2
        rw [hnil] at hrest
        simp only [Except.ok.injEq] at hrest
        subst hrest
        simp only [List.append_nil, Except.ok.injEq] at h3
        subst h3
        have hiff := encode_field_eq_nil_iff 1 v f.ty seg hseg
        rw [hiff]
        simp only [Bool.and_eq_true, Bool.not_eq_true', decide_eq_true_eq] at hv2
        constructor
        · intro hc
          tauto
        · intro hc
          tauto
  · simp [model_validate_proto, validateLoop, constructModel, constructFields, dictLookup,
      List.find?, hreq]

end Protodantic


namespace Protodantic

/-- One-step unfolding of the decode loop on any nonempty buffer. -/
theorem validateLoop_ne_nil (fields : List FieldDecl) (bs : List Nat)
    (fv : List (Nat × PValue)) (hne : bs ≠ []) :
    validateLoop fields bs fv =
      (let r := decode_varint bs
      let tag := r.1
      let r1 := r.2
      let field_number := tag / 8
      let wire_type := tag % 8
      match dictLookup (create_proto_map fields) field_number with
      | none => .error "Unknown field number"
      | some idx =>
        let f := fields.getD idx dfltDecl
        let t := unwrapOpt f.ty
        if wire_type = WIRETYPE_VARINT then
          let r2 := decode_varint r1
          let value : PValue := match t with
            | .tBool => .vbool (r2.1 != 0)
            | _ => .vint r2.1
          do
            let fv2 ← accumulate t fv idx value
            validateLoop fields r2.2 fv2
        else if wire_type = WIRETYPE_FIXED64 then
          if r1.length < 8 then .error "struct.error: unpack requires 8 bytes"
          else do
            let fv2 ← accumulate t fv idx (.vfloat (unpackLE64 (r1.take 8)))
            validateLoop fields (r1.drop 8) fv2
        else if wire_type = WIRETYPE_LENGTH_DELIMITED then
          let r2 := decode_varint r1
          let data_bytes := r2.2.take r2.1
          let rest := r2.2.drop r2.1
          match t with
          | .tStr => do
            let fv2 ← accumulate t fv idx (.vstr data_bytes)
            validateLoop fields rest fv2
          | .tBytes => do
            let fv2 ← accumulate t fv idx (.vbytes data_bytes)
            validateLoop fields rest fv2
          | .tList inner =>
            (match inner with
            | .tMsg d => do
              let m ← model_validate_proto d data_bytes
              let fv2 ← accumulate t fv idx m
              validateLoop fields rest fv2
            | _ => do
              let fv2 ← accumulate t fv idx (.vbytes data_bytes)
              validateLoop fields rest fv2)
          | .tMap kt vt => do
            let p ← mapEntryLoop kt vt data_bytes none none
            let fv2 ← accumulate t fv idx (.ventry p.1 p.2)
            validateLoop fields rest fv2
          | .tMsg d => do
            let m ← model_validate_proto d data_bytes
            let fv3 ← accumulate t fv idx m
            validateLoop fields rest fv3
          | _ => do
            let fv2 ← accumulate t fv idx (.vbytes data_bytes)
            validateLoop fields rest fv2
        else .error "Unsupported wire type") := by
  cases bs with
  | nil => exact absurd rfl hne
  | cons b tail => rw [validateLoop]

/-- One-step unfolding of the map-entry loop on any nonempty payload. -/
theorem mapEntryLoop_ne_nil (kt vt : PType) (bs : List Nat) (ek ev : Option PValue)
    (hne : bs ≠ []) :
    mapEntryLoop kt vt bs ek ev =
      (let r := decode_varint bs
      let entry_tag := r.1
      let r1 := r.2
      let efn := entry_tag / 8
      let ewt := entry_tag % 8
      if efn = 1 then
        if ewt = WIRETYPE_VARINT then
          let r2 := decode_varint r1
          mapEntryLoop kt vt r2.2 (some (.vint r2.1)) ev
        else if ewt = WIRETYPE_LENGTH_DELIMITED then
          let r2 := decode_varint r1
          let key_bytes := r2.2.take r2.1
          let k : PValue := match kt with
            | .tStr => .vstr key_bytes
            | _ => .vbytes key_bytes
          mapEntryLoop kt vt (r2.2.drop r2.1) (some k) ev
        else mapEntryLoop kt vt r1 ek ev
      else if efn = 2 then
        if ewt = WIRETYPE_VARINT then
          let r2 := decode_varint r1
          let v : PValue := match vt with
            | .tBool => .vbool (r2.1 != 0)
            | _ => .vint r2.1
          mapEntryLoop kt vt r2.2 ek (some v)
        else if ewt = WIRETYPE_FIXED64 then
          if r1.length < 8 then .error "struct.error: unpack requires 8 bytes"
          else mapEntryLoop kt vt (r1.drop 8) ek (some (.vfloat (unpackLE64 (r1.take 8))))
        else if ewt = WIRETYPE_LENGTH_DELIMITED then
          let r2 := decode_varint r1
          let value_bytes := r2.2.take r2.1
          let rest := r2.2.drop r2.1
          match vt with
          | .tStr => mapEntryLoop kt vt rest ek (some (.vstr value_bytes))
          | .tBytes => mapEntryLoop kt vt rest ek (some (.vbytes value_bytes))
          | .tMsg d => do
            let m ← model_validate_proto d value_bytes
            mapEntryLoop kt vt rest ek (some m)
          | _ => mapEntryLoop kt vt rest ek (some (.vbytes value_bytes))
        else mapEntryLoop kt vt r1 ek ev
      else mapEntryLoop kt vt r1 ek ev) := by
  cases bs with
  | nil => exact absurd rfl hne
  | cons b tail => rw [mapEntryLoop]

end Protodantic

namespace Protodantic

theorem validateValue_rawElem (e : PType) (v : PValue) (he : elemOk e = true)
    (hs : supported e v = true) : validateValue e (rawElem e v) = .ok v := by
  cases e <;> simp [elemOk] at he <;> cases v <;>
    simp [supported.eq_def] at hs <;>
    simp [rawElem, validateValue.eq_def]

theorem validateValue_rawKey (kt : PType) (k : PValue) (hk : keyOk kt = true)
    (hs : supported kt k = true) : validateValue kt (rawKey kt k) = .ok k := by
  cases kt <;> simp [keyOk] at hk <;> cases k <;>
    simp [supported.eq_def] at hs <;>
    simp [rawKey, validateValue.eq_def]

theorem validateValue_rawVal (vt : PType) (v : PValue) (hv : valOk vt = true)
    (hs : supported vt v = true) : validateValue vt (rawVal vt v) = .ok v := by
  cases vt <;> simp [valOk, scalarKind, isMsg] at hv <;> cases v <;>
    simp [supported.eq_def] at hs <;>
    simp [rawVal, validateValue.eq_def]

theorem validateList_raw (e : PType) (xs : List PValue) (he : elemOk e = true)
    (hs : supportedList e xs = true) :
    validateList e (xs.map (rawElem e)) = .ok xs := by
  induction xs with
  | nil => simp [validateList]
  | cons x rest ih =>
    rw [supportedList] at hs
    simp only [Bool.and_eq_true] at hs
    simp only [List.map_cons]
    rw [validateList]
    rw [validateValue_rawElem e x he hs.1, ih hs.2]
    rfl

theorem validateEntries_raw (kt vt : PType) (es : List (PValue × PValue))
    (hk : keyOk kt = true) (hv : valOk vt = true)
    (hs : supportedEntries kt vt es = true) :
    validateEntries kt vt (es.map (fun p => (rawKey kt p.1, rawVal vt p.2))) = .ok es := by
  induction es with
  | nil => simp [validateEntries]
  | cons e rest ih =>
    rcases e with ⟨k, v⟩
    rw [supportedEntries] at hs
    simp only [Bool.and_eq_true] at hs
    simp only [List.map_cons]
    rw [validateEntries]
    rw [validateValue_rawKey kt k hk hs.1.1, validateValue_rawVal vt v hv hs.1.2, ih hs.2]
    rfl

theorem validateValue_rawField (t : PType) (v : PValue) (hs : supported t v = true)
    (hnn : v ≠ .vnone) : validateValue t (rawField t v) = .ok v := by
  cases t
  case tOpt t1 =>
    cases v <;> try exact absurd rfl hnn
    all_goals
      rw [supported] at hs
      simp only [Bool.and_eq_true] at hs
      obtain ⟨h1, h2⟩ := hs
      cases t1 <;> simp [scalarKind, isMsg] at h1
      all_goals try simp [supported.eq_def] at h2
      all_goals simp [rawField, unwrapOpt, validateValue.eq_def]
  case tList e =>
    cases v <;> simp [supported.eq_def] at hs
    obtain ⟨he, hl⟩ := hs
    simp only [rawField, unwrapOpt]
    rw [validateValue]
    rw [validateList_raw e _ he hl]
    rfl
  case tMap kt vt =>
    cases v <;> simp [supported.eq_def] at hs
    obtain ⟨⟨⟨hk, hv2⟩, hse⟩, hnd⟩ := hs
    simp only [rawField, unwrapOpt]
    rw [validateValue]
    rw [validateEntries_raw kt vt _ hk hv2 hse]
    rfl
  all_goals
    cases v <;> simp [supported.eq_def] at hs <;>
      simp [rawField, unwrapOpt, validateValue.eq_def]

end Protodantic

namespace Protodantic

theorem tag_div (fn w : Nat) (hw : w < 8) : (fn * 8 + w) / 8 = fn := by omega

theorem tag_mod (fn w : Nat) (hw : w < 8) : (fn * 8 + w) % 8 = w := by omega

theorem seg_field_int (fields : List FieldDecl) (fn idx : Nat) (f : FieldDecl) (n : Nat)
    (hlk : dictLookup (create_proto_map fields) fn = some idx)
    (hf : fields.getD idx dfltDecl = f)
    (hty : unwrapOpt f.ty = .tInt)
    (rest : List Nat) (fv : List (Nat × PValue)) :
    validateLoop fields ((encodeVarint (fn * 8 + 0) ++ encodeVarint n) ++ rest) fv
      = validateLoop fields rest (dictInsert fv idx (.vint n)) := by
  have hne : (encodeVarint (fn * 8 + 0) ++ encodeVarint n) ++ rest ≠ [] := by
    intro hc
    simp at hc
    exact encodeVarint_ne_nil _ hc.1
  rw [validateLoop_ne_nil fields _ fv hne]
  simp only [List.append_assoc]
  rw [decode_varint_encode (fn * 8 + 0) (encodeVarint n ++ rest)]
  simp only [tag_div fn 0 (by omega), tag_mod fn 0 (by omega), hlk, hf, hty]
  rw [decode_varint_encode n rest]
  simp [accumulate, WIRETYPE_VARINT]

theorem seg_field_enum (fields : List FieldDecl) (fn idx : Nat) (f : FieldDecl) (n : Nat)
    (hlk : dictLookup (create_proto_map fields) fn = some idx)
    (hf : fields.getD idx dfltDecl = f)
    (hty : unwrapOpt f.ty = .tEnum)
    (rest : List Nat) (fv : List (Nat × PValue)) :
    validateLoop fields ((encodeVarint (fn * 8 + 0) ++ encodeVarint n) ++ rest) fv
      = validateLoop fields rest (dictInsert fv idx (.vint n)) := by
  have hne : (encodeVarint (fn * 8 + 0) ++ encodeVarint n) ++ rest ≠ [] := by
    intro hc
    simp at hc
    exact encodeVarint_ne_nil _ hc.1
  rw [validateLoop_ne_nil fields _ fv hne]
  simp only [List.append_assoc]
  rw [decode_varint_encode (fn * 8 + 0) (encodeVarint n ++ rest)]
  simp only [tag_div fn 0 (by omega), tag_mod fn 0 (by omega), hlk, hf, hty]
  rw [decode_varint_encode n rest]
  simp [accumulate, WIRETYPE_VARINT]

theorem seg_field_bool (fields : List FieldDecl) (fn idx : Nat) (f : FieldDecl) (b : Bool)
    (hlk : dictLookup (create_proto_map fields) fn = some idx)
    (hf : fields.getD idx dfltDecl = f)
    (hty : unwrapOpt f.ty = .tBool)
    (rest : List Nat) (fv : List (Nat × PValue)) :
    validateLoop fields ((encodeVarint (fn * 8 + 0) ++ encodeVarint (if b then 1 else 0)) ++ rest) fv
      = validateLoop fields rest (dictInsert fv idx (.vbool b)) := by
  have hne : (encodeVarint (fn * 8 + 0) ++ encodeVarint (if b then 1 else 0)) ++ rest ≠ [] := by
    intro hc
    simp at hc
    exact encodeVarint_ne_nil _ hc.1
  rw [validateLoop_ne_nil fields _ fv hne]
  simp only [List.append_assoc]
  rw [decode_varint_encode (fn * 8 + 0) (encodeVarint (if b then 1 else 0) ++ rest)]
  simp only [tag_div fn 0 (by omega), tag_mod fn 0 (by omega), hlk, hf, hty]
  rw [decode_varint_encode (if b then 1 else 0) rest]
  cases b <;> simp [accumulate, WIRETYPE_VARINT]

theorem seg_field_float (fields : List FieldDecl) (fn idx : Nat) (f : FieldDecl) (bits : Nat)
    (hlk : dictLookup (create_proto_map fields) fn = some idx)
    (hf : fields.getD idx dfltDecl = f)
    (hty : unwrapOpt f.ty = .tFloat)
    (hlt : bits < 18446744073709551616)
    (rest : List Nat) (fv : List (Nat × PValue)) :
    validateLoop fields ((encodeVarint (fn * 8 + 1) ++ packLE64 bits) ++ rest) fv
      = validateLoop fields rest (dictInsert fv idx (.vfloat bits)) := by
  have hne : (encodeVarint (fn * 8 + 1) ++ packLE64 bits) ++ rest ≠ [] := by
    intro hc
    simp at hc
    exact encodeVarint_ne_nil _ hc.1
  have htake : (packLE64 bits ++ rest).take 8 = packLE64 bits := by
    have := List.take_left (packLE64 bits) rest
    rwa [packLE64_length bits] at this
  have hdrop : (packLE64 bits ++ rest).drop 8 = rest := by
    have := List.drop_left (packLE64 bits) rest
    rwa [packLE64_length bits] at this
  have hlen : ¬ (packLE64 bits ++ rest).length < 8 := by
    simp [packLE64_length]
  rw [validateLoop_ne_nil fields _ fv hne]
  simp only [List.append_assoc]
  rw [decode_varint_encode (fn * 8 + 1) (packLE64 bits ++ rest)]
  simp only [tag_div fn 1 (by omega), tag_mod fn 1 (by omega), hlk, hf, hty]
  simp [accumulate, WIRETYPE_VARINT, WIRETYPE_FIXED64, hlen, htake, hdrop,
    packLE64_length, unpackLE64_packLE64 bits hlt]

theorem seg_field_str (fields : List FieldDecl) (fn idx : Nat) (f : FieldDecl) (bs : List Nat)
    (hlk : dictLookup (create_proto_map fields) fn = some idx)
    (hf : fields.getD idx dfltDecl = f)
    (hty : unwrapOpt f.ty = .tStr)
    (rest : List Nat) (fv : List (Nat × PValue)) :
    validateLoop fields ((encodeVarint (fn * 8 + 2) ++ (encodeVarint bs.length ++ bs)) ++ rest) fv
      = validateLoop fields rest (dictInsert fv idx (.vstr bs)) := by
  have hne : (encodeVarint (fn * 8 + 2) ++ (encodeVarint bs.length ++ bs)) ++ rest ≠ [] := by
    intro hc
    simp at hc
    exact encodeVarint_ne_nil _ hc.1
  rw [validateLoop_ne_nil fields _ fv hne]
  simp only [List.append_assoc]
  rw [decode_varint_encode (fn * 8 + 2) (encodeVarint bs.length ++ (bs ++ rest))]
  simp only [tag_div fn 2 (by omega), tag_mod fn 2 (by omega), hlk, hf, hty]
  rw [decode_varint_encode bs.length (bs ++ rest)]
  simp [accumulate, WIRETYPE_VARINT, WIRETYPE_FIXED64, WIRETYPE_LENGTH_DELIMITED,
    List.take_left, List.drop_left]

theorem seg_field_bytes (fields : List FieldDecl) (fn idx : Nat) (f : FieldDecl) (bs : List Nat)
    (hlk : dictLookup (create_proto_map fields) fn = some idx)
    (hf : fields.getD idx dfltDecl = f)
    (hty : unwrapOpt f.ty = .tBytes)
    (rest : List Nat) (fv : List (Nat × PValue)) :
    validateLoop fields ((encodeVarint (fn * 8 + 2) ++ (encodeVarint bs.length ++ bs)) ++ rest) fv
      = validateLoop fields rest (dictInsert fv idx (.vbytes bs)) := by
  have hne : (encodeVarint (fn * 8 + 2) ++ (encodeVarint bs.length ++ bs)) ++ rest ≠ [] := by
    intro hc
    simp at hc
    exact encodeVarint_ne_nil _ hc.1
  rw [validateLoop_ne_nil fields _ fv hne]
  simp only [List.append_assoc]
  rw [decode_varint_encode (fn * 8 + 2) (encodeVarint bs.length ++ (bs ++ rest))]
  simp only [tag_div fn 2 (by omega), tag_mod fn 2 (by omega), hlk, hf, hty]
  rw [decode_varint_encode bs.length (bs ++ rest)]
  simp [accumulate, WIRETYPE_VARINT, WIRETYPE_FIXED64, WIRETYPE_LENGTH_DELIMITED,
    List.take_left, List.drop_left]

theorem seg_field_msg (fields : List FieldDecl) (fn idx : Nat) (f : FieldDecl)
    (d : List FieldDecl) (vs : List PValue) (nb : List Nat)
    (hlk : dictLookup (create_proto_map fields) fn = some idx)
    (hf : fields.getD idx dfltDecl = f)
    (hty : unwrapOpt f.ty = .tMsg d)
    (hval : model_validate_proto d nb = .ok (.vmsg vs))
    (rest : List Nat) (fv : List (Nat × PValue)) :
    validateLoop fields ((encodeVarint (fn * 8 + 2) ++ (encodeVarint nb.length ++ nb)) ++ rest) fv
      = validateLoop fields rest (dictInsert fv idx (.vmsg vs)) := by
  have hne : (encodeVarint (fn * 8 + 2) ++ (encodeVarint nb.length ++ nb)) ++ rest ≠ [] := by
    intro hc
    simp at hc
    exact encodeVarint_ne_nil _ hc.1
  rw [validateLoop_ne_nil fields _ fv hne]
  simp only [List.append_assoc]
  rw [decode_varint_encode (fn * 8 + 2) (encodeVarint nb.length ++ (nb ++ rest))]
  simp only [tag_div fn 2 (by omega), tag_mod fn 2 (by omega), hlk, hf, hty]
  rw [decode_varint_encode nb.length (nb ++ rest)]
  simp [accumulate, WIRETYPE_VARINT, WIRETYPE_FIXED64, WIRETYPE_LENGTH_DELIMITED,
    List.take_left, List.drop_left, hval]

theorem dictInsert_existing {α : Type} (fv0 : List (Nat × α)) (idx : Nat) (x y : α)
    (hfv0 : ∀ p ∈ fv0, p.1 ≠ idx) :
    dictInsert (fv0 ++ [(idx, x)]) idx y = fv0 ++ [(idx, y)] := by
  unfold dictInsert
  rw [if_pos (by simp)]
  rw [List.map_append]
  congr 1
  · calc List.map (fun p => if p.1 = idx then (idx, y) else p) fv0
        = List.map id fv0 :=
          List.map_congr_left (fun p hp => by
            simp only [id_eq]
            rw [if_neg (hfv0 p hp)])
      _ = fv0 := List.map_id fv0
  · simp

theorem accumulate_list_fresh (e : PType) (fv : List (Nat × PValue)) (idx : Nat) (v : PValue)
    (hfv : ∀ p ∈ fv, p.1 ≠ idx) :
    accumulate (.tList e) fv idx v = .ok (fv ++ [(idx, .vlist [v])]) := by
  have hfind : fv.find? (fun p => decide (p.1 = idx)) = none :=
    List.find?_eq_none.mpr (fun p hp => by simp [hfv p hp])
  have hlk : dictLookup fv idx = none := by
    unfold dictLookup
    rw [hfind]
    rfl
  simp [accumulate, hlk, dictInsert_fresh fv idx _ hfv]

theorem accumulate_list_append (e : PType) (fv0 : List (Nat × PValue)) (acc : List PValue)
    (idx : Nat) (v : PValue) (hfv0 : ∀ p ∈ fv0, p.1 ≠ idx) :
    accumulate (.tList e) (fv0 ++ [(idx, .vlist acc)]) idx v
      = .ok (fv0 ++ [(idx, .vlist (acc ++ [v]))]) := by
  have hlk := dictLookup_append_self fv0 idx (PValue.vlist acc) hfv0
  simp [accumulate, hlk, dictInsert_existing fv0 idx _ _ hfv0]

theorem seg_item_str (fields : List FieldDecl) (fn idx : Nat) (f : FieldDecl) (bs : List Nat)
    (hlk : dictLookup (create_proto_map fields) fn = some idx)
    (hf : fields.getD idx dfltDecl = f)
    (hty : unwrapOpt f.ty = .tList .tStr)
    (rest : List Nat) (fv : List (Nat × PValue)) :
    validateLoop fields ((encodeVarint (fn * 8 + 2) ++ (encodeVarint bs.length ++ bs)) ++ rest) fv
      = (do
          let fv2 ← accumulate (.tList .tStr) fv idx (.vbytes bs)
          validateLoop fields rest fv2) := by
  have hne : (encodeVarint (fn * 8 + 2) ++ (encodeVarint bs.length ++ bs)) ++ rest ≠ [] := by
    intro hc
    simp at hc
    exact encodeVarint_ne_nil _ hc.1
  rw [validateLoop_ne_nil fields _ fv hne]
  simp only [List.append_assoc]
  rw [decode_varint_encode (fn * 8 + 2) (encodeVarint bs.length ++ (bs ++ rest))]
  simp only [tag_div fn 2 (by omega), tag_mod fn 2 (by omega), hlk, hf, hty]
  rw [decode_varint_encode bs.length (bs ++ rest)]
  simp [WIRETYPE_VARINT, WIRETYPE_FIXED64, WIRETYPE_LENGTH_DELIMITED,
    List.take_left, List.drop_left]

theorem seg_item_bytes (fields : List FieldDecl) (fn idx : Nat) (f : FieldDecl) (bs : List Nat)
    (hlk : dictLookup (create_proto_map fields) fn = some idx)
    (hf : fields.getD idx dfltDecl = f)
    (hty : unwrapOpt f.ty = .tList .tBytes)
    (rest : List Nat) (fv : List (Nat × PValue)) :
    validateLoop fields ((encodeVarint (fn * 8 + 2) ++ (encodeVarint bs.length ++ bs)) ++ rest) fv
      = (do
          let fv2 ← accumulate (.tList .tBytes) fv idx (.vbytes bs)
          validateLoop fields rest fv2) := by
  have hne : (encodeVarint (fn * 8 + 2) ++ (encodeVarint bs.length ++ bs)) ++ rest ≠ [] := by
    intro hc
    simp at hc
    exact encodeVarint_ne_nil _ hc.1
  rw [validateLoop_ne_nil fields _ fv hne]
  simp only [List.append_assoc]
  rw [decode_varint_encode (fn * 8 + 2) (encodeVarint bs.length ++ (bs ++ rest))]
  simp only [tag_div fn 2 (by omega), tag_mod fn 2 (by omega), hlk, hf, hty]
  rw [decode_varint_encode bs.length (bs ++ rest)]
  simp [WIRETYPE_VARINT, WIRETYPE_FIXED64, WIRETYPE_LENGTH_DELIMITED,
    List.take_left, List.drop_left]

theorem seg_item_msg (fields : List FieldDecl) (fn idx : Nat) (f : FieldDecl)
    (d : List FieldDecl) (vs : List PValue) (nb : List Nat)
    (hlk : dictLookup (create_proto_map fields) fn = some idx)
    (hf : fields.getD idx dfltDecl = f)
    (hty : unwrapOpt f.ty = .tList (.tMsg d))
    (hval : model_validate_proto d nb = .ok (.vmsg vs))
    (rest : List Nat) (fv : List (Nat × PValue)) :
    validateLoop fields ((encodeVarint (fn * 8 + 2) ++ (encodeVarint nb.length ++ nb)) ++ rest) fv
      = (do
          let fv2 ← accumulate (.tList (.tMsg d)) fv idx (.vmsg vs)
          validateLoop fields rest fv2) := by
  have hne : (encodeVarint (fn * 8 + 2) ++ (encodeVarint nb.length ++ nb)) ++ rest ≠ [] := by
    intro hc
    simp at hc
    exact encodeVarint_ne_nil _ hc.1
  rw [validateLoop_ne_nil fields _ fv hne]
  simp only [List.append_assoc]
  rw [decode_varint_encode (fn * 8 + 2) (encodeVarint nb.length ++ (nb ++ rest))]
  simp only [tag_div fn 2 (by omega), tag_mod fn 2 (by omega), hlk, hf, hty]
  rw [decode_varint_encode nb.length (nb ++ rest)]
  simp [WIRETYPE_VARINT, WIRETYPE_FIXED64, WIRETYPE_LENGTH_DELIMITED,
    List.take_left, List.drop_left, hval]
end Protodantic

namespace Protodantic

theorem sizeOf_head_le (x : PValue) (xs : List PValue) : sizeOf x ≤ sizeOf (x :: xs) := by
  simp only [List.cons.sizeOf_spec]
  omega

theorem sizeOf_tail_le (x : PValue) (xs : List PValue) : sizeOf xs ≤ sizeOf (x :: xs) := by
  simp only [List.cons.sizeOf_spec]
  omega

theorem seg_items_chain (N : Nat) (hIH : RT N) (fields : List FieldDecl) (fn idx : Nat)
    (f : FieldDecl) (e : PType)
    (hlk : dictLookup (create_proto_map fields) fn = some idx)
    (hf : fields.getD idx dfltDecl = f)
    (hty : unwrapOpt f.ty = .tList e) (he : elemOk e = true) :
    ∀ (xs : List PValue), supportedList e xs = true → sizeOf xs ≤ N →
    ∃ segs, encodeListItems (fn * 8 + 2) xs e = .ok segs ∧
      ∀ (acc : List PValue) (fv0 : List (Nat × PValue)) (rest : List Nat),
        (∀ p ∈ fv0, p.1 ≠ idx) →
        validateLoop fields (segs ++ rest) (fv0 ++ [(idx, .vlist acc)])
          = validateLoop fields rest (fv0 ++ [(idx, .vlist (acc ++ xs.map (rawElem e)))]) := by
  intro xs
  induction xs with
  | nil =>
    intro _ _
    refine ⟨[], by rw [encodeListItems], ?_⟩
    intro acc fv0 rest _
    simp
  | cons x xs' ih =>
    intro hsl hsz
    rw [supportedList] at hsl
    simp only [Bool.and_eq_true] at hsl
    obtain ⟨hsx, hsl'⟩ := hsl
    have hszx : sizeOf x ≤ N := le_trans (sizeOf_head_le x xs') hsz
    have hsz' : sizeOf xs' ≤ N := le_trans (sizeOf_tail_le x xs') hsz
    obtain ⟨segs', henc', hstep'⟩ := ih hsl' hsz'
    cases e
    case tStr =>
      cases x <;> simp [supported.eq_def] at hsx
      rename_i bs
      have hencv : encode_value (.vstr bs) .tStr = .ok (encodeVarint bs.length ++ bs) := by
        simp [encode_value, unwrapOpt]
      refine ⟨encodeVarint (fn * 8 + 2) ++ (encodeVarint bs.length ++ bs) ++ segs', ?_, ?_⟩
      · rw [encodeListItems, hencv, henc']
        simp
      · intro acc fv0 rest hfv0
        have hassoc : (encodeVarint (fn * 8 + 2) ++ (encodeVarint bs.length ++ bs) ++ segs')
            ++ rest
            = (encodeVarint (fn * 8 + 2) ++ (encodeVarint bs.length ++ bs)) ++ (segs' ++ rest) := by
          simp
        rw [hassoc, seg_item_str fields fn idx f bs hlk hf hty (segs' ++ rest) _]
        rw [accumulate_list_append .tStr fv0 acc idx (.vbytes bs) hfv0]
        rw [except_bind_ok]
        rw [hstep' (acc ++ [PValue.vbytes bs]) fv0 rest hfv0]
        simp [rawElem]
    case tBytes =>
      cases x <;> simp [supported.eq_def] at hsx
      rename_i bs
      have hencv : encode_value (.vbytes bs) .tBytes = .ok (encodeVarint bs.length ++ bs) := by
        simp [encode_value, unwrapOpt]
      refine ⟨encodeVarint (fn * 8 + 2) ++ (encodeVarint bs.length ++ bs) ++ segs', ?_, ?_⟩
      · rw [encodeListItems, hencv, henc']
        simp
      · intro acc fv0 rest hfv0
        have hassoc : (encodeVarint (fn * 8 + 2) ++ (encodeVarint bs.length ++ bs) ++ segs')
            ++ rest
            = (encodeVarint (fn * 8 + 2) ++ (encodeVarint bs.length ++ bs)) ++ (segs' ++ rest) := by
          simp
        rw [hassoc, seg_item_bytes fields fn idx f bs hlk hf hty (segs' ++ rest) _]
        rw [accumulate_list_append .tBytes fv0 acc idx (.vbytes bs) hfv0]
        rw [except_bind_ok]
        rw [hstep' (acc ++ [PValue.vbytes bs]) fv0 rest hfv0]
        simp [rawElem]
    case tMsg d =>
      cases x <;> simp [supported.eq_def] at hsx
      rename_i vs
      have hszvs : sizeOf vs < N := by
        have h1 : sizeOf vs < sizeOf (PValue.vmsg vs) := by
          simp only [PValue.vmsg.sizeOf_spec]
          omega
        have h2 := sizeOf_head_le (PValue.vmsg vs) xs'
        omega
      obtain ⟨nb, hdump, hval⟩ := hIH d vs hszvs hsx
      have hencv : encode_value (.vmsg vs) (.tMsg d) = .ok (encodeVarint nb.length ++ nb) := by
        simp [encode_value, unwrapOpt, hdump]
      refine ⟨encodeVarint (fn * 8 + 2) ++ (encodeVarint nb.length ++ nb) ++ segs', ?_, ?_⟩
      · rw [encodeListItems, hencv, henc']
        simp
      · intro acc fv0 rest hfv0
        have hassoc : (encodeVarint (fn * 8 + 2) ++ (encodeVarint nb.length ++ nb) ++ segs')
            ++ rest
            = (encodeVarint (fn * 8 + 2) ++ (encodeVarint nb.length ++ nb)) ++ (segs' ++ rest) := by
          simp
        rw [hassoc, seg_item_msg fields fn idx f d vs nb hlk hf hty hval (segs' ++ rest) _]
        rw [accumulate_list_append (.tMsg d) fv0 acc idx (.vmsg vs) hfv0]
        rw [except_bind_ok]
        rw [hstep' (acc ++ [PValue.vmsg vs]) fv0 rest hfv0]
        simp [rawElem]
    all_goals simp [elemOk] at he

end Protodantic

namespace Protodantic

theorem seg_field_list (N : Nat) (hIH : RT N) (fields : List FieldDecl) (fn idx : Nat)
    (f : FieldDecl) (e : PType) (xs : List PValue)
    (hlk : dictLookup (create_proto_map fields) fn = some idx)
    (hf : fields.getD idx dfltDecl = f)
    (hfty : f.ty = .tList e) (he : elemOk e = true)
    (hxs : xs ≠ []) (hsl : supportedList e xs = true) (hsz : sizeOf xs ≤ N) :
    ∃ seg, encode_field fn (.vlist xs) f.ty = .ok seg ∧
      ∀ (rest : List Nat) (fv : List (Nat × PValue)), (∀ p ∈ fv, p.1 ≠ idx) →
        validateLoop fields (seg ++ rest) fv
          = validateLoop fields rest (fv ++ [(idx, .vlist (xs.map (rawElem e)))]) := by
  have hty : unwrapOpt f.ty = .tList e := by rw [hfty]; rfl
  have hkey : build_key fn f.ty = fn * 8 + 2 := by
    rw [build_key, hfty]
    rfl
  cases xs with
  | nil => exact absurd rfl hxs
  | cons x xs' =>
    rw [supportedList] at hsl
    simp only [Bool.and_eq_true] at hsl
    obtain ⟨hsx, hsl'⟩ := hsl
    have hszx : sizeOf x ≤ N := le_trans (sizeOf_head_le x xs') hsz
    have hsz' : sizeOf xs' ≤ N := le_trans (sizeOf_tail_le x xs') hsz
    obtain ⟨segs', henc', hstep'⟩ :=
      seg_items_chain N hIH fields fn idx f e hlk hf hty he xs' hsl' hsz'
    cases e
    case tStr =>
      cases x <;> simp [supported.eq_def] at hsx
      rename_i bs
      have hencv : encode_value (.vstr bs) .tStr = .ok (encodeVarint bs.length ++ bs) := by
        simp [encode_value, unwrapOpt]
      refine ⟨encodeVarint (fn * 8 + 2) ++ (encodeVarint bs.length ++ bs) ++ segs', ?_, ?_⟩
      · rw [hfty]
        simp only [encode_field.eq_def]
        rw [show build_key fn (PType.tList .tStr) = fn * 8 + 2 from by
          simp [build_key, get_wiretype, unwrapOpt, WIRETYPE_LENGTH_DELIMITED]]
        rw [encodeListItems, hencv, except_bind_ok, henc', except_bind_ok]
      · intro rest fv hfv
        have hassoc : (encodeVarint (fn * 8 + 2) ++ (encodeVarint bs.length ++ bs) ++ segs')
            ++ rest
            = (encodeVarint (fn * 8 + 2) ++ (encodeVarint bs.length ++ bs)) ++ (segs' ++ rest) := by
          simp
        rw [hassoc, seg_item_str fields fn idx f bs hlk hf hty (segs' ++ rest) fv]
        rw [accumulate_list_fresh .tStr fv idx (.vbytes bs) hfv]
        rw [except_bind_ok]
        rw [hstep' [PValue.vbytes bs] fv rest hfv]
        simp [rawElem]
    case tBytes =>
      cases x <;> simp [supported.eq_def] at hsx
      rename_i bs
      have hencv : encode_value (.vbytes bs) .tBytes = .ok (encodeVarint bs.length ++ bs) := by
        simp [encode_value, unwrapOpt]
      refine ⟨encodeVarint (fn * 8 + 2) ++ (encodeVarint bs.length ++ bs) ++ segs', ?_, ?_⟩
      · rw [hfty]
        simp only [encode_field.eq_def]
        rw [show build_key fn (PType.tList .tBytes) = fn * 8 + 2 from by
          simp [build_key, get_wiretype, unwrapOpt, WIRETYPE_LENGTH_DELIMITED]]
        rw [encodeListItems, hencv, except_bind_ok, henc', except_bind_ok]
      · intro rest fv hfv
        have hassoc : (encodeVarint (fn * 8 + 2) ++ (encodeVarint bs.length ++ bs) ++ segs')
            ++ rest
            = (encodeVarint (fn * 8 + 2) ++ (encodeVarint bs.length ++ bs)) ++ (segs' ++ rest) := by
          simp
        rw [hassoc, seg_item_bytes fields fn idx f bs hlk hf hty (segs' ++ rest) fv]
        rw [accumulate_list_fresh .tBytes fv idx (.vbytes bs) hfv]
        rw [except_bind_ok]
        rw [hstep' [PValue.vbytes bs] fv rest hfv]
        simp [rawElem]
    case tMsg d =>
      cases x <;> simp [supported.eq_def] at hsx
      rename_i vs
      have hszvs : sizeOf vs < N := by
        have h1 : sizeOf vs < sizeOf (PValue.vmsg vs) := by
          simp only [PValue.vmsg.sizeOf_spec]
          omega
        have h2 := sizeOf_head_le (PValue.vmsg vs) xs'
        omega
      obtain ⟨nb, hdump, hval⟩ := hIH d vs hszvs hsx
      have hencv : encode_value (.vmsg vs) (.tMsg d) = .ok (encodeVarint nb.length ++ nb) := by
        simp [encode_value, unwrapOpt, hdump]
      refine ⟨encodeVarint (fn * 8 + 2) ++ (encodeVarint nb.length ++ nb) ++ segs', ?_, ?_⟩
      · rw [hfty]
        simp only [encode_field.eq_def]
        rw [show build_key fn (PType.tList (.tMsg d)) = fn * 8 + 2 from by
          simp [build_key, get_wiretype, unwrapOpt, WIRETYPE_LENGTH_DELIMITED]]
        rw [encodeListItems, hencv, except_bind_ok, henc', except_bind_ok]
      · intro rest fv hfv
        have hassoc : (encodeVarint (fn * 8 + 2) ++ (encodeVarint nb.length ++ nb) ++ segs')
            ++ rest
            = (encodeVarint (fn * 8 + 2) ++ (encodeVarint nb.length ++ nb)) ++ (segs' ++ rest) := by
          simp
        rw [hassoc, seg_item_msg fields fn idx f d vs nb hlk hf hty hval (segs' ++ rest) fv]
        rw [accumulate_list_fresh (.tMsg d) fv idx (.vmsg vs) hfv]
        rw [except_bind_ok]
        rw [hstep' [PValue.vmsg vs] fv rest hfv]
        simp [rawElem]
    all_goals simp [elemOk] at he

end Protodantic

namespace Protodantic

theorem mapEntry_key_int (kt vt : PType) (hkt : kt = .tInt ∨ kt = .tEnum) (n : Nat)
    (X : List Nat) (ev : Option PValue) :
    mapEntryLoop kt vt (encodeVarint 8 ++ (encodeVarint n ++ X)) none ev
      = mapEntryLoop kt vt X (some (.vint n)) ev := by
  have hne : encodeVarint 8 ++ (encodeVarint n ++ X) ≠ [] := by
    intro hc
    simp at hc
    exact encodeVarint_ne_nil _ hc.1
  rw [mapEntryLoop_ne_nil kt vt _ none ev hne]
  rcases hkt with rfl | rfl <;>
    simp [decode_varint_encode, WIRETYPE_VARINT]

theorem mapEntry_key_str (vt : PType) (bs : List Nat)
    (X : List Nat) (ev : Option PValue) :
    mapEntryLoop .tStr vt (encodeVarint 10 ++ ((encodeVarint bs.length ++ bs) ++ X)) none ev
      = mapEntryLoop .tStr vt X (some (.vstr bs)) ev := by
  have hne : encodeVarint 10 ++ ((encodeVarint bs.length ++ bs) ++ X) ≠ [] := by
    intro hc
    simp at hc
    exact encodeVarint_ne_nil _ hc.1
  rw [mapEntryLoop_ne_nil _ vt _ none ev hne]
  rw [List.append_assoc]
  simp [decode_varint_encode, WIRETYPE_VARINT, WIRETYPE_FIXED64, WIRETYPE_LENGTH_DELIMITED,
    List.take_left, List.drop_left]

theorem mapEntry_key_bytes (vt : PType) (bs : List Nat)
    (X : List Nat) (ev : Option PValue) :
    mapEntryLoop .tBytes vt (encodeVarint 10 ++ ((encodeVarint bs.length ++ bs) ++ X)) none ev
      = mapEntryLoop .tBytes vt X (some (.vbytes bs)) ev := by
  have hne : encodeVarint 10 ++ ((encodeVarint bs.length ++ bs) ++ X) ≠ [] := by
    intro hc
    simp at hc
    exact encodeVarint_ne_nil _ hc.1
  rw [mapEntryLoop_ne_nil _ vt _ none ev hne]
  rw [List.append_assoc]
  simp [decode_varint_encode, WIRETYPE_VARINT, WIRETYPE_FIXED64, WIRETYPE_LENGTH_DELIMITED,
    List.take_left, List.drop_left]

theorem mapEntry_val_int (kt vt : PType) (hvt : vt = .tInt ∨ vt = .tEnum) (n : Nat)
    (X : List Nat) (ek : Option PValue) :
    mapEntryLoop kt vt (encodeVarint 16 ++ (encodeVarint n ++ X)) ek none
      = mapEntryLoop kt vt X ek (some (.vint n)) := by
  have hne : encodeVarint 16 ++ (encodeVarint n ++ X) ≠ [] := by
    intro hc
    simp at hc
    exact encodeVarint_ne_nil _ hc.1
  rw [mapEntryLoop_ne_nil kt vt _ ek none hne]
  rcases hvt with rfl | rfl <;>
    simp [decode_varint_encode, WIRETYPE_VARINT]

theorem mapEntry_val_bool (kt : PType) (b : Bool)
    (X : List Nat) (ek : Option PValue) :
    mapEntryLoop kt .tBool (encodeVarint 16 ++ (encodeVarint (if b then 1 else 0) ++ X)) ek none
      = mapEntryLoop kt .tBool X ek (some (.vbool b)) := by
  have hne : encodeVarint 16 ++ (encodeVarint (if b then 1 else 0) ++ X) ≠ [] := by
    intro hc
    simp at hc
    exact encodeVarint_ne_nil _ hc.1
  rw [mapEntryLoop_ne_nil kt _ _ ek none hne]
  cases b <;> simp [decode_varint_encode, WIRETYPE_VARINT]

theorem mapEntry_val_float (kt : PType) (bits : Nat) (hlt : bits < 18446744073709551616)
    (X : List Nat) (ek : Option PValue) :
    mapEntryLoop kt .tFloat (encodeVarint 17 ++ (packLE64 bits ++ X)) ek none
      = mapEntryLoop kt .tFloat X ek (some (.vfloat bits)) := by
  have hne : encodeVarint 17 ++ (packLE64 bits ++ X) ≠ [] := by
    intro hc
    simp at hc
    exact encodeVarint_ne_nil _ hc.1
  have htake : (packLE64 bits ++ X).take 8 = packLE64 bits := by
    have := List.take_left (packLE64 bits) X
    rwa [packLE64_length bits] at this
  have hdrop : (packLE64 bits ++ X).drop 8 = X := by
    have := List.drop_left (packLE64 bits) X
    rwa [packLE64_length bits] at this
  rw [mapEntryLoop_ne_nil kt _ _ ek none hne]
  simp [decode_varint_encode, WIRETYPE_VARINT, WIRETYPE_FIXED64, htake, hdrop,
    packLE64_length, unpackLE64_packLE64 bits hlt]

theorem mapEntry_val_str (kt : PType) (bs : List Nat)
    (X : List Nat) (ek : Option PValue) :
    mapEntryLoop kt .tStr (encodeVarint 18 ++ ((encodeVarint bs.length ++ bs) ++ X)) ek none
      = mapEntryLoop kt .tStr X ek (some (.vstr bs)) := by
  have hne : encodeVarint 18 ++ ((encodeVarint bs.length ++ bs) ++ X) ≠ [] := by
    intro hc
    simp at hc
    exact encodeVarint_ne_nil _ hc.1
  rw [mapEntryLoop_ne_nil kt _ _ ek none hne]
  rw [List.append_assoc]
  simp [decode_varint_encode, WIRETYPE_VARINT, WIRETYPE_FIXED64, WIRETYPE_LENGTH_DELIMITED,
    List.take_left, List.drop_left]

theorem mapEntry_val_bytes (kt : PType) (bs : List Nat)
    (X : List Nat) (ek : Option PValue) :
    mapEntryLoop kt .tBytes (encodeVarint 18 ++ ((encodeVarint bs.length ++ bs) ++ X)) ek none
      = mapEntryLoop kt .tBytes X ek (some (.vbytes bs)) := by
  have hne : encodeVarint 18 ++ ((encodeVarint bs.length ++ bs) ++ X) ≠ [] := by
    intro hc
    simp at hc
    exact encodeVarint_ne_nil _ hc.1
  rw [mapEntryLoop_ne_nil kt _ _ ek none hne]
  rw [List.append_assoc]
  simp [decode_varint_encode, WIRETYPE_VARINT, WIRETYPE_FIXED64, WIRETYPE_LENGTH_DELIMITED,
    List.take_left, List.drop_left]

theorem mapEntry_val_msg (kt : PType) (d : List FieldDecl) (vs : List PValue) (nb : List Nat)
    (hval : model_validate_proto d nb = .ok (.vmsg vs))
    (X : List Nat) (ek : Option PValue) :
    mapEntryLoop kt (.tMsg d) (encodeVarint 18 ++ ((encodeVarint nb.length ++ nb) ++ X)) ek none
      = mapEntryLoop kt (.tMsg d) X ek (some (.vmsg vs)) := by
  have hne : encodeVarint 18 ++ ((encodeVarint nb.length ++ nb) ++ X) ≠ [] := by
    intro hc
    simp at hc
    exact encodeVarint_ne_nil _ hc.1
  rw [mapEntryLoop_ne_nil kt _ _ ek none hne]
  rw [List.append_assoc]
  simp [decode_varint_encode, WIRETYPE_VARINT, WIRETYPE_FIXED64, WIRETYPE_LENGTH_DELIMITED,
    List.take_left, List.drop_left, hval]

theorem mapEntryLoop_nil (kt vt : PType) (ek ev : Option PValue) :
    mapEntryLoop kt vt [] ek ev = .ok (ek, ev) := by
  rw [mapEntryLoop]

end Protodantic

namespace Protodantic

theorem seg_entry_ld (fields : List FieldDecl) (fn idx : Nat) (f : FieldDecl) (kt vt : PType)
    (hlk : dictLookup (create_proto_map fields) fn = some idx)
    (hf : fields.getD idx dfltDecl = f)
    (hty : unwrapOpt f.ty = .tMap kt vt)
    (item rest : List Nat) (fv : List (Nat × PValue)) :
    validateLoop fields ((encodeVarint (fn * 8 + 2) ++ (encodeVarint item.length ++ item)) ++ rest) fv
      = (do
          let p ← mapEntryLoop kt vt item none none
          let fv2 ← accumulate (.tMap kt vt) fv idx (.ventry p.1 p.2)
          validateLoop fields rest fv2) := by
  have hne : (encodeVarint (fn * 8 + 2) ++ (encodeVarint item.length ++ item)) ++ rest ≠ [] := by
    intro hc
    simp at hc
    exact encodeVarint_ne_nil _ hc.1
  rw [validateLoop_ne_nil fields _ fv hne]
  simp only [List.append_assoc]
  rw [decode_varint_encode (fn * 8 + 2) (encodeVarint item.length ++ (item ++ rest))]
  simp only [tag_div fn 2 (by omega), tag_mod fn 2 (by omega), hlk, hf, hty]
  rw [decode_varint_encode item.length (item ++ rest)]
  simp [WIRETYPE_VARINT, WIRETYPE_FIXED64, WIRETYPE_LENGTH_DELIMITED,
    List.take_left, List.drop_left]

theorem accumulate_map_fresh (kt vt : PType) (fv : List (Nat × PValue)) (idx : Nat)
    (k v : PValue) (hfv : ∀ p ∈ fv, p.1 ≠ idx) :
    accumulate (.tMap kt vt) fv idx (.ventry (some k) (some v))
      = .ok (fv ++ [(idx, .vmap [(k, v)])]) := by
  have hfind : fv.find? (fun p => decide (p.1 = idx)) = none :=
    List.find?_eq_none.mpr (fun p hp => by simp [hfv p hp])
  have hlkv : dictLookup fv idx = none := by
    unfold dictLookup
    rw [hfind]
    rfl
  have hinner : dictInsert ([] : List (PValue × PValue)) k v = [(k, v)] := by
    simp [dictInsert]
  simp only [accumulate, hlkv, Option.getD_none, Option.getD_some]
  rw [hinner, dictInsert_fresh fv idx _ hfv]

theorem accumulate_map_append (kt vt : PType) (fv0 : List (Nat × PValue))
    (m : List (PValue × PValue)) (idx : Nat) (k v : PValue)
    (hfv0 : ∀ p ∈ fv0, p.1 ≠ idx) (hk : ∀ q ∈ m, q.1 ≠ k) :
    accumulate (.tMap kt vt) (fv0 ++ [(idx, .vmap m)]) idx (.ventry (some k) (some v))
      = .ok (fv0 ++ [(idx, .vmap (m ++ [(k, v)]))]) := by
  have hlkv := dictLookup_append_self fv0 idx (PValue.vmap m) hfv0
  simp only [accumulate, hlkv, Option.getD_some]
  rw [dictInsert_fresh m k v hk]
  rw [dictInsert_existing fv0 idx _ _ hfv0]

theorem rawKey_inj (kt : PType) (hk : keyOk kt = true) (a b : PValue)
    (ha : supported kt a = true) (hb : supported kt b = true)
    (heq : rawKey kt a = rawKey kt b) : a = b := by
  cases kt <;> simp [keyOk] at hk <;>
    cases a <;> simp [supported.eq_def] at ha <;>
    cases b <;> simp [supported.eq_def] at hb <;>
    simp [rawKey] at heq <;> simp [heq]

end Protodantic

namespace Protodantic

theorem key_chunk (kt vt : PType) (k : PValue)
    (hk : keyOk kt = true) (hsk : supported kt k = true) :
    ∃ pk, encode_value k kt = .ok pk ∧
      ∀ (X : List Nat) (ev : Option PValue),
        mapEntryLoop kt vt ((encodeVarint (1 * 8 + get_wiretype kt) ++ pk) ++ X) none ev
          = mapEntryLoop kt vt X (some (rawKey kt k)) ev := by
  cases kt <;> simp [keyOk] at hk
  case tInt =>
    cases k <;> simp [supported.eq_def] at hsk
    rename_i n
    refine ⟨encodeVarint n, by simp [encode_value, unwrapOpt], ?_⟩
    intro X ev
    have h8 : (1 * 8 + get_wiretype PType.tInt) = 8 := by
      simp [get_wiretype, unwrapOpt, WIRETYPE_VARINT]
    rw [h8, List.append_assoc]
    rw [mapEntry_key_int .tInt vt (Or.inl rfl) n X ev]
    simp [rawKey]
  case tEnum =>
    cases k <;> simp [supported.eq_def] at hsk
    rename_i n
    refine ⟨encodeVarint n, by simp [encode_value, unwrapOpt], ?_⟩
    intro X ev
    have h8 : (1 * 8 + get_wiretype PType.tEnum) = 8 := by
      simp [get_wiretype, unwrapOpt, WIRETYPE_VARINT]
    rw [h8, List.append_assoc]
    rw [mapEntry_key_int .tEnum vt (Or.inr rfl) n X ev]
    simp [rawKey]
  case tStr =>
    cases k <;> simp [supported.eq_def] at hsk
    rename_i bs
    refine ⟨encodeVarint bs.length ++ bs, by simp [encode_value, unwrapOpt], ?_⟩
    intro X ev
    have h10 : (1 * 8 + get_wiretype PType.tStr) = 10 := by
      simp [get_wiretype, unwrapOpt, WIRETYPE_LENGTH_DELIMITED]
    rw [h10, List.append_assoc]
    rw [mapEntry_key_str vt bs X ev]
    simp [rawKey]
  case tBytes =>
    cases k <;> simp [supported.eq_def] at hsk
    rename_i bs
    refine ⟨encodeVarint bs.length ++ bs, by simp [encode_value, unwrapOpt], ?_⟩
    intro X ev
    have h10 : (1 * 8 + get_wiretype PType.tBytes) = 10 := by
      simp [get_wiretype, unwrapOpt, WIRETYPE_LENGTH_DELIMITED]
    rw [h10, List.append_assoc]
    rw [mapEntry_key_bytes vt bs X ev]
    simp [rawKey]

theorem val_chunk (N : Nat) (hIH : RT N) (kt vt : PType) (w : PValue)
    (hv : valOk vt = true) (hsw : supported vt w = true) (hsz : sizeOf w ≤ N) :
    ∃ pv, encode_value w vt = .ok pv ∧
      ∀ (X : List Nat) (ek : Option PValue),
        mapEntryLoop kt vt ((encodeVarint (2 * 8 + get_wiretype vt) ++ pv) ++ X) ek none
          = mapEntryLoop kt vt X ek (some (rawVal vt w)) := by
  cases vt <;> simp [valOk, scalarKind, isMsg] at hv
  case tInt =>
    cases w <;> simp [supported.eq_def] at hsw
    rename_i n
    refine ⟨encodeVarint n, by simp [encode_value, unwrapOpt], ?_⟩
    intro X ek
    have h16 : (2 * 8 + get_wiretype PType.tInt) = 16 := by
      simp [get_wiretype, unwrapOpt, WIRETYPE_VARINT]
    rw [h16, List.append_assoc]
    rw [mapEntry_val_int kt .tInt (Or.inl rfl) n X ek]
    simp [rawVal]
  case tEnum =>
    cases w <;> simp [supported.eq_def] at hsw
    rename_i n
    refine ⟨encodeVarint n, by simp [encode_value, unwrapOpt], ?_⟩
    intro X ek
    have h16 : (2 * 8 + get_wiretype PType.tEnum) = 16 := by
      simp [get_wiretype, unwrapOpt, WIRETYPE_VARINT]
    rw [h16, List.append_assoc]
    rw [mapEntry_val_int kt .tEnum (Or.inr rfl) n X ek]
    simp [rawVal]
  case tBool =>
    cases w <;> simp [supported.eq_def] at hsw
    rename_i b
    refine ⟨encodeVarint (if b then 1 else 0), by simp [encode_value, unwrapOpt], ?_⟩
    intro X ek
    have h16 : (2 * 8 + get_wiretype PType.tBool) = 16 := by
      simp [get_wiretype, unwrapOpt, WIRETYPE_VARINT]
    rw [h16, List.append_assoc]
    rw [mapEntry_val_bool kt b X ek]
    simp [rawVal]
  case tFloat =>
    cases w <;> simp [supported.eq_def] at hsw
    rename_i bits
    refine ⟨packLE64 bits, by simp [encode_value, unwrapOpt], ?_⟩
    intro X ek
    have h17 : (2 * 8 + get_wiretype PType.tFloat) = 17 := by
      simp [get_wiretype, unwrapOpt, WIRETYPE_FIXED64]
    rw [h17, List.append_assoc]
    rw [mapEntry_val_float kt bits hsw X ek]
    simp [rawVal]
  case tStr =>
    cases w <;> simp [supported.eq_def] at hsw
    rename_i bs
    refine ⟨encodeVarint bs.length ++ bs, by simp [encode_value, unwrapOpt], ?_⟩
    intro X ek
    have h18 : (2 * 8 + get_wiretype PType.tStr) = 18 := by
      simp [get_wiretype, unwrapOpt, WIRETYPE_LENGTH_DELIMITED]
    rw [h18, List.append_assoc]
    rw [mapEntry_val_str kt bs X ek]
    simp [rawVal]
  case tBytes =>
    cases w <;> simp [supported.eq_def] at hsw
    rename_i bs
    refine ⟨encodeVarint bs.length ++ bs, by simp [encode_value, unwrapOpt], ?_⟩
    intro X ek
    have h18 : (2 * 8 + get_wiretype PType.tBytes) = 18 := by
      simp [get_wiretype, unwrapOpt, WIRETYPE_LENGTH_DELIMITED]
    rw [h18, List.append_assoc]
    rw [mapEntry_val_bytes kt bs X ek]
    simp [rawVal]
  case tMsg d =>
    cases w <;> simp [supported.eq_def] at hsw
    rename_i vs
    have hszvs : sizeOf vs < N := by
      simp only [PValue.vmsg.sizeOf_spec] at hsz
      omega
    obtain ⟨nb, hdump, hval⟩ := hIH d vs hszvs hsw
    refine ⟨encodeVarint nb.length ++ nb, by simp [encode_value, unwrapOpt, hdump], ?_⟩
    intro X ek
    have h18 : (2 * 8 + get_wiretype (PType.tMsg d)) = 18 := by
      simp [get_wiretype, unwrapOpt, WIRETYPE_LENGTH_DELIMITED]
    rw [h18, List.append_assoc]
    rw [mapEntry_val_msg kt d vs nb hval X ek]
    simp [rawVal]

end Protodantic

namespace Protodantic

theorem supportedEntries_key_mem (kt vt : PType) :
    ∀ es, supportedEntries kt vt es = true → ∀ p ∈ es, supported kt p.1 = true := by
  intro es
  induction es with
  | nil => intro _ p hp; simp at hp
  | cons e rest ih =>
    rcases e with ⟨k, w⟩
    intro hse p hp
    rw [supportedEntries] at hse
    simp only [Bool.and_eq_true] at hse
    rcases List.mem_cons.mp hp with rfl | hmem
    · exact hse.1.1
    · exact ih hse.2 p hmem

theorem mapEntry_item_ok (N : Nat) (hIH : RT N) (kt vt : PType) (k w : PValue)
    (hk : keyOk kt = true) (hv : valOk vt = true)
    (hsk : supported kt k = true) (hsw : supported vt w = true) (hszw : sizeOf w ≤ N) :
    ∃ pk pv, encode_value k kt = .ok pk ∧ encode_value w vt = .ok pv ∧
      mapEntryLoop kt vt
          (encodeVarint (1 * 8 + get_wiretype kt) ++ pk
            ++ encodeVarint (2 * 8 + get_wiretype vt) ++ pv) none none
        = .ok (some (rawKey kt k), some (rawVal vt w)) := by
  obtain ⟨pk, hpk, hkstep⟩ := key_chunk kt vt k hk hsk
  obtain ⟨pv, hpv, hvstep⟩ := val_chunk N hIH kt vt w hv hsw hszw
  refine ⟨pk, pv, hpk, hpv, ?_⟩
  have hsplit : encodeVarint (1 * 8 + get_wiretype kt) ++ pk
      ++ encodeVarint (2 * 8 + get_wiretype vt) ++ pv
      = (encodeVarint (1 * 8 + get_wiretype kt) ++ pk)
        ++ (encodeVarint (2 * 8 + get_wiretype vt) ++ pv) := by
    simp
  rw [hsplit, hkstep]
  have hsplit2 : encodeVarint (2 * 8 + get_wiretype vt) ++ pv
      = (encodeVarint (2 * 8 + get_wiretype vt) ++ pv) ++ [] := by
    simp
  rw [hsplit2, hvstep]
  exact mapEntryLoop_nil kt vt _ _

theorem seg_entries_chain (N : Nat) (hIH : RT N) (fields : List FieldDecl) (fn idx : Nat)
    (f : FieldDecl) (kt vt : PType)
    (hlk : dictLookup (create_proto_map fields) fn = some idx)
    (hf : fields.getD idx dfltDecl = f)
    (hty : unwrapOpt f.ty = .tMap kt vt)
    (hk : keyOk kt = true) (hv : valOk vt = true) :
    ∀ (es : List (PValue × PValue)), supportedEntries kt vt es = true → sizeOf es ≤ N →
      (es.map Prod.fst).Nodup →
    ∃ segs, encodeDictItems (fn * 8 + 2) (1 * 8 + get_wiretype kt) (2 * 8 + get_wiretype vt)
        es kt vt = .ok segs ∧
      ∀ (m : List (PValue × PValue)) (fv0 : List (Nat × PValue)) (rest : List Nat),
        (∀ p ∈ fv0, p.1 ≠ idx) →
        (∀ q ∈ m, ∀ p ∈ es, q.1 ≠ rawKey kt p.1) →
        validateLoop fields (segs ++ rest) (fv0 ++ [(idx, .vmap m)])
          = validateLoop fields rest
              (fv0 ++ [(idx, .vmap (m ++ es.map (fun p => (rawKey kt p.1, rawVal vt p.2))))]) := by
  intro es
  induction es with
  | nil =>
    intro _ _ _
    refine ⟨[], by rw [encodeDictItems], ?_⟩
    intro m fv0 rest _ _
    simp
  | cons e es' ih =>
    rcases e with ⟨k, w⟩
    intro hse hsz hnd
    rw [supportedEntries] at hse
    simp only [Bool.and_eq_true] at hse
    obtain ⟨⟨hsk, hsw⟩, hse'⟩ := hse
    have hszw : sizeOf w ≤ N := by
      simp only [List.cons.sizeOf_spec, Prod.mk.sizeOf_spec] at hsz
      omega
    have hsz' : sizeOf es' ≤ N := by
      simp only [List.cons.sizeOf_spec] at hsz
      omega
    have hnd' : (es'.map Prod.fst).Nodup := by
      simp only [List.map_cons, List.nodup_cons] at hnd
      exact hnd.2
    have hknotin : k ∉ es'.map Prod.fst := by
      simp only [List.map_cons, List.nodup_cons] at hnd
      exact hnd.1
    obtain ⟨segs', henc', hstep'⟩ := ih hse' hsz' hnd'
    obtain ⟨pk, pv, hpk, hpv, hentry⟩ := mapEntry_item_ok N hIH kt vt k w hk hv hsk hsw hszw
    refine ⟨encodeVarint (fn * 8 + 2)
        ++ encodeVarint (encodeVarint (1 * 8 + get_wiretype kt) ++ pk
          ++ encodeVarint (2 * 8 + get_wiretype vt) ++ pv).length
        ++ (encodeVarint (1 * 8 + get_wiretype kt) ++ pk
          ++ encodeVarint (2 * 8 + get_wiretype vt) ++ pv) ++ segs', ?_, ?_⟩
    · rw [encodeDictItems, hpk, except_bind_ok, hpv, except_bind_ok, henc', except_bind_ok]
    · intro m fv0 rest hfv0 hfreshm
      have hassoc : (encodeVarint (fn * 8 + 2)
          ++ encodeVarint (encodeVarint (1 * 8 + get_wiretype kt) ++ pk
            ++ encodeVarint (2 * 8 + get_wiretype vt) ++ pv).length
          ++ (encodeVarint (1 * 8 + get_wiretype kt) ++ pk
            ++ encodeVarint (2 * 8 + get_wiretype vt) ++ pv) ++ segs') ++ rest
          = (encodeVarint (fn * 8 + 2)
            ++ (encodeVarint (encodeVarint (1 * 8 + get_wiretype kt) ++ pk
              ++ encodeVarint (2 * 8 + get_wiretype vt) ++ pv).length
            ++ (encodeVarint (1 * 8 + get_wiretype kt) ++ pk
              ++ encodeVarint (2 * 8 + get_wiretype vt) ++ pv))) ++ (segs' ++ rest) := by
        simp
      rw [hassoc]
      rw [seg_entry_ld fields fn idx f kt vt hlk hf hty _ (segs' ++ rest) _]
      rw [hentry, except_bind_ok]
      have hmfresh : ∀ q ∈ m, q.1 ≠ rawKey kt k := by
        intro q hq
        exact hfreshm q hq (k, w) (by simp)
      rw [accumulate_map_append kt vt fv0 m idx (rawKey kt k) (rawVal vt w) hfv0 hmfresh]
      rw [except_bind_ok]
      have hfresh' : ∀ q ∈ m ++ [(rawKey kt k, rawVal vt w)], ∀ p ∈ es', q.1 ≠ rawKey kt p.1 := by
        intro q hq p hp
        rcases List.mem_append.mp hq with hqm | hqk
        · exact hfreshm q hqm p (by simp [hp])
        · simp at hqk
          subst hqk
          simp only
          intro hc
          have hpk1 : supported kt p.1 = true := supportedEntries_key_mem kt vt es' hse' p hp
          have := rawKey_inj kt hk k p.1 hsk hpk1 hc
          exact hknotin (this ▸ List.mem_map_of_mem Prod.fst hp)
      rw [hstep' (m ++ [(rawKey kt k, rawVal vt w)]) fv0 rest hfv0 hfresh']
      simp

end Protodantic

namespace Protodantic

theorem seg_field_map (N : Nat) (hIH : RT N) (fields : List FieldDecl) (fn idx : Nat)
    (f : FieldDecl) (kt vt : PType) (es : List (PValue × PValue))
    (hlk : dictLookup (create_proto_map fields) fn = some idx)
    (hf : fields.getD idx dfltDecl = f)
    (hfty : f.ty = .tMap kt vt)
    (hk : keyOk kt = true) (hv : valOk vt = true)
    (hes : es ≠ []) (hse : supportedEntries kt vt es = true)
    (hnd : (es.map Prod.fst).Nodup) (hsz : sizeOf es ≤ N) :
    ∃ seg, encode_field fn (.vmap es) f.ty = .ok seg ∧
      ∀ (rest : List Nat) (fv : List (Nat × PValue)), (∀ p ∈ fv, p.1 ≠ idx) →
        validateLoop fields (seg ++ rest) fv
          = validateLoop fields rest
              (fv ++ [(idx, .vmap (es.map (fun p => (rawKey kt p.1, rawVal vt p.2))))]) := by
  have hty : unwrapOpt f.ty = .tMap kt vt := by rw [hfty]; rfl
  cases es with
  | nil => exact absurd rfl hes
  | cons e es' =>
    rcases e with ⟨k, w⟩
    rw [supportedEntries] at hse
    simp only [Bool.and_eq_true] at hse
    obtain ⟨⟨hsk, hsw⟩, hse'⟩ := hse
    have hszw : sizeOf w ≤ N := by
      simp only [List.cons.sizeOf_spec, Prod.mk.sizeOf_spec] at hsz
      omega
    have hsz' : sizeOf es' ≤ N := by
      simp only [List.cons.sizeOf_spec] at hsz
      omega
    have hnd' : (es'.map Prod.fst).Nodup := by
      simp only [List.map_cons, List.nodup_cons] at hnd
      exact hnd.2
    have hknotin : k ∉ es'.map Prod.fst := by
      simp only [List.map_cons, List.nodup_cons] at hnd
      exact hnd.1
    obtain ⟨segs', henc', hstep'⟩ :=
      seg_entries_chain N hIH fields fn idx f kt vt hlk hf hty hk hv es' hse' hsz' hnd'
    obtain ⟨pk, pv, hpk, hpv, hentry⟩ := mapEntry_item_ok N hIH kt vt k w hk hv hsk hsw hszw
    have hkey2 : build_key fn (PType.tMap kt vt) = fn * 8 + 2 := by
      simp [build_key, get_wiretype, unwrapOpt, WIRETYPE_LENGTH_DELIMITED]
    refine ⟨encodeVarint (fn * 8 + 2)
        ++ encodeVarint (encodeVarint (1 * 8 + get_wiretype kt) ++ pk
          ++ encodeVarint (2 * 8 + get_wiretype vt) ++ pv).length
        ++ (encodeVarint (1 * 8 + get_wiretype kt) ++ pk
          ++ encodeVarint (2 * 8 + get_wiretype vt) ++ pv) ++ segs', ?_, ?_⟩
    · rw [hfty]
      simp only [encode_field.eq_def]
      rw [hkey2]
      rw [encodeDictItems, hpk, except_bind_ok, hpv, except_bind_ok, henc', except_bind_ok]
    · intro rest fv hfv
      have hassoc : (encodeVarint (fn * 8 + 2)
          ++ encodeVarint (encodeVarint (1 * 8 + get_wiretype kt) ++ pk
            ++ encodeVarint (2 * 8 + get_wiretype vt) ++ pv).length
          ++ (encodeVarint (1 * 8 + get_wiretype kt) ++ pk
            ++ encodeVarint (2 * 8 + get_wiretype vt) ++ pv) ++ segs') ++ rest
          = (encodeVarint (fn * 8 + 2)
            ++ (encodeVarint (encodeVarint (1 * 8 + get_wiretype kt) ++ pk
              ++ encodeVarint (2 * 8 + get_wiretype vt) ++ pv).length
            ++ (encodeVarint (1 * 8 + get_wiretype kt) ++ pk
              ++ encodeVarint (2 * 8 + get_wiretype vt) ++ pv))) ++ (segs' ++ rest) := by
        simp
      rw [hassoc]
      rw [seg_entry_ld fields fn idx f kt vt hlk hf hty _ (segs' ++ rest) _]
      rw [hentry, except_bind_ok]
      rw [accumulate_map_fresh kt vt fv idx (rawKey kt k) (rawVal vt w) hfv]
      rw [except_bind_ok]
      have hfresh' : ∀ q ∈ [(rawKey kt k, rawVal vt w)], ∀ p ∈ es', q.1 ≠ rawKey kt p.1 := by
        intro q hq p hp
        simp at hq
        subst hq
        simp only
        intro hc
        have hpk1 : supported kt p.1 = true := supportedEntries_key_mem kt vt es' hse' p hp
        have := rawKey_inj kt hk k p.1 hsk hpk1 hc
        exact hknotin (this ▸ List.mem_map_of_mem Prod.fst hp)
      rw [hstep' [(rawKey kt k, rawVal vt w)] fv rest hfv hfresh']
      simp

end Protodantic

namespace Protodantic

theorem seg_field_scalar (N : Nat) (hIH : RT N) (fields : List FieldDecl) (fn idx : Nat)
    (f : FieldDecl) (v : PValue) (u : PType)
    (hlk : dictLookup (create_proto_map fields) fn = some idx)
    (hf : fields.getD idx dfltDecl = f)
    (hty : unwrapOpt f.ty = u) (ht_or : f.ty = u ∨ f.ty = .tOpt u)
    (hsup : supported u v = true)
    (hsc : (scalarKind u || isMsg u) = true)
    (hsz : sizeOf v ≤ N) :
    ∃ seg, encode_field fn v f.ty = .ok seg ∧
      ∀ (rest : List Nat) (fv : List (Nat × PValue)),
        validateLoop fields (seg ++ rest) fv
          = validateLoop fields rest (dictInsert fv idx (rawField f.ty v)) := by
  cases u
  case tInt =>
    cases v <;> simp [supported.eq_def] at hsup
    rename_i n
    have hencv : encode_value (.vint n) f.ty = .ok (encodeVarint n) := by
      rcases ht_or with h | h <;> rw [h] <;> simp [encode_value.eq_def, unwrapOpt]
    have hraw2 : rawField f.ty (.vint n) = .vint n := by
      rcases ht_or with h | h <;> rw [h] <;> simp [rawField, unwrapOpt]
    refine ⟨encodeVarint (fn * 8 + 0) ++ (encodeVarint n), ?_, ?_⟩
    · rcases ht_or with h | h <;>
        (rw [h] at hencv ⊢
         simp only [encode_field.eq_def]
         simp [hencv, build_key, get_wiretype, unwrapOpt, WIRETYPE_VARINT])
    · intro rest fv
      rw [seg_field_int fields fn idx f n hlk hf hty rest fv, hraw2]
  case tEnum =>
    cases v <;> simp [supported.eq_def] at hsup
    rename_i n
    have hencv : encode_value (.venum n) f.ty = .ok (encodeVarint n) := by
      rcases ht_or with h | h <;> rw [h] <;> simp [encode_value.eq_def, unwrapOpt]
    have hraw2 : rawField f.ty (.venum n) = .vint n := by
      rcases ht_or with h | h <;> rw [h] <;> simp [rawField, unwrapOpt]
    refine ⟨encodeVarint (fn * 8 + 0) ++ (encodeVarint n), ?_, ?_⟩
    · rcases ht_or with h | h <;>
        (rw [h] at hencv ⊢
         simp only [encode_field.eq_def]
         simp [hencv, build_key, get_wiretype, unwrapOpt, WIRETYPE_VARINT])
    · intro rest fv
      rw [seg_field_enum fields fn idx f n hlk hf hty rest fv, hraw2]
  case tBool =>
    cases v <;> simp [supported.eq_def] at hsup
    rename_i b
    have hencv : encode_value (.vbool b) f.ty = .ok (encodeVarint (if b then 1 else 0)) := by
      rcases ht_or with h | h <;> rw [h] <;> simp [encode_value.eq_def, unwrapOpt]
    have hraw2 : rawField f.ty (.vbool b) = .vbool b := by
      rcases ht_or with h | h <;> rw [h] <;> simp [rawField, unwrapOpt]
    refine ⟨encodeVarint (fn * 8 + 0) ++ (encodeVarint (if b then 1 else 0)), ?_, ?_⟩
    · rcases ht_or with h | h <;>
        (rw [h] at hencv ⊢
         simp only [encode_field.eq_def]
         simp [hencv, build_key, get_wiretype, unwrapOpt, WIRETYPE_VARINT])
    · intro rest fv
      rw [seg_field_bool fields fn idx f b hlk hf hty rest fv, hraw2]
  case tFloat =>
    cases v <;> simp [supported.eq_def] at hsup
    rename_i bits
    have hencv : encode_value (.vfloat bits) f.ty = .ok (packLE64 bits) := by
      rcases ht_or with h | h <;> rw [h] <;> simp [encode_value.eq_def, unwrapOpt]
    have hraw2 : rawField f.ty (.vfloat bits) = .vfloat bits := by
      rcases ht_or with h | h <;> rw [h] <;> simp [rawField, unwrapOpt]
    refine ⟨encodeVarint (fn * 8 + 1) ++ (packLE64 bits), ?_, ?_⟩
    · rcases ht_or with h | h <;>
        (rw [h] at hencv ⊢
         simp only [encode_field.eq_def]
         simp [hencv, build_key, get_wiretype, unwrapOpt, WIRETYPE_FIXED64])
    · intro rest fv
      rw [seg_field_float fields fn idx f bits hlk hf hty hsup rest fv, hraw2]
  case tStr =>
    cases v <;> simp [supported.eq_def] at hsup
    rename_i bs
    have hencv : encode_value (.vstr bs) f.ty = .ok (encodeVarint bs.length ++ bs) := by
      rcases ht_or with h | h <;> rw [h] <;> simp [encode_value.eq_def, unwrapOpt]
    have hraw2 : rawField f.ty (.vstr bs) = .vstr bs := by
      rcases ht_or with h | h <;> rw [h] <;> simp [rawField, unwrapOpt]
    refine ⟨encodeVarint (fn * 8 + 2) ++ (encodeVarint bs.length ++ bs), ?_, ?_⟩
    · rcases ht_or with h | h <;>
        (rw [h] at hencv ⊢
         simp only [encode_field.eq_def]
         simp [hencv, build_key, get_wiretype, unwrapOpt, WIRETYPE_LENGTH_DELIMITED])
    · intro rest fv
      rw [seg_field_str fields fn idx f bs hlk hf hty rest fv, hraw2]
  case tBytes =>
    cases v <;> simp [supported.eq_def] at hsup
    rename_i bs
    have hencv : encode_value (.vbytes bs) f.ty = .ok (encodeVarint bs.length ++ bs) := by
      rcases ht_or with h | h <;> rw [h] <;> simp [encode_value.eq_def, unwrapOpt]
    have hraw2 : rawField f.ty (.vbytes bs) = .vbytes bs := by
      rcases ht_or with h | h <;> rw [h] <;> simp [rawField, unwrapOpt]
    refine ⟨encodeVarint (fn * 8 + 2) ++ (encodeVarint bs.length ++ bs), ?_, ?_⟩
    · rcases ht_or with h | h <;>
        (rw [h] at hencv ⊢
         simp only [encode_field.eq_def]
         simp [hencv, build_key, get_wiretype, unwrapOpt, WIRETYPE_LENGTH_DELIMITED])
    · intro rest fv
      rw [seg_field_bytes fields fn idx f bs hlk hf hty rest fv, hraw2]
  case tMsg d =>
    cases v <;> simp [supported.eq_def] at hsup
    rename_i vs
    have hszvs : sizeOf vs < N := by
      simp only [PValue.vmsg.sizeOf_spec] at hsz
      omega
    obtain ⟨nb, hdump, hval⟩ := hIH d vs hszvs hsup
    have hencv : encode_value (.vmsg vs) f.ty = .ok (encodeVarint nb.length ++ nb) := by
      rcases ht_or with h | h <;> rw [h] <;> simp [encode_value.eq_def, unwrapOpt, hdump]
    have hraw2 : rawField f.ty (.vmsg vs) = .vmsg vs := by
      rcases ht_or with h | h <;> rw [h] <;> simp [rawField, unwrapOpt]
    refine ⟨encodeVarint (fn * 8 + 2) ++ (encodeVarint nb.length ++ nb), ?_, ?_⟩
    · rcases ht_or with h | h <;>
        (rw [h] at hencv ⊢
         simp only [encode_field.eq_def]
         simp [hencv, build_key, get_wiretype, unwrapOpt, WIRETYPE_LENGTH_DELIMITED])
    · intro rest fv
      rw [seg_field_msg fields fn idx f d vs nb hlk hf hty hval rest fv, hraw2]
  all_goals simp [scalarKind, isMsg] at hsc

end Protodantic

namespace Protodantic

theorem supported_opt_elim (t1 : PType) (v : PValue) (hnn : v ≠ .vnone) :
    supported (.tOpt t1) v = ((scalarKind t1 || isMsg t1) && supported t1 v) := by
  cases v <;> first
    | exact absurd rfl hnn
    | (rw [supported] <;> simp)

theorem seg_field_main (N : Nat) (hIH : RT N) (fields : List FieldDecl) (fn idx : Nat)
    (f : FieldDecl) (v : PValue)
    (hlk : dictLookup (create_proto_map fields) fn = some idx)
    (hf : fields.getD idx dfltDecl = f)
    (hsup : supported f.ty v = true) (hnn : v ≠ .vnone)
    (hnel : v ≠ .vlist []) (hnem : v ≠ .vmap []) (hsz : sizeOf v ≤ N) :
    ∃ seg, encode_field fn v f.ty = .ok seg ∧
      ∀ (rest : List Nat) (fv : List (Nat × PValue)), (∀ p ∈ fv, p.1 ≠ idx) →
        validateLoop fields (seg ++ rest) fv
          = validateLoop fields rest (fv ++ [(idx, rawField f.ty v)]) := by
  cases hft : f.ty
  case tOpt t1 =>
    rw [hft, supported_opt_elim t1 v hnn] at hsup
    simp only [Bool.and_eq_true] at hsup
    obtain ⟨hsc, hsup1⟩ := hsup
    have hty : unwrapOpt f.ty = t1 := by rw [hft]; rfl
    obtain ⟨seg, henc, hstep⟩ := seg_field_scalar N hIH fields fn idx f v t1 hlk hf hty
      (Or.inr hft) hsup1 hsc hsz
    rw [hft] at henc hstep
    refine ⟨seg, henc, ?_⟩
    intro rest fv hfv
    rw [hstep rest fv, dictInsert_fresh fv idx _ hfv]
  case tList e =>
    rw [hft] at hsup
    cases v <;> simp [supported.eq_def] at hsup
    rename_i xs
    obtain ⟨he, hsl⟩ := hsup
    have hxs : xs ≠ [] := by
      intro hc
      subst hc
      exact hnel rfl
    obtain ⟨seg, henc, hstep⟩ := seg_field_list N hIH fields fn idx f e xs hlk hf hft he hxs hsl
      (by simp only [PValue.vlist.sizeOf_spec] at hsz; omega)
    rw [hft] at henc
    refine ⟨seg, henc, ?_⟩
    intro rest fv hfv
    rw [hstep rest fv hfv]
    have hraw : rawField (.tList e) (.vlist xs) = .vlist (xs.map (rawElem e)) := by
      simp [rawField, unwrapOpt]
    rw [hraw]
  case tMap kt vt =>
    rw [hft] at hsup
    cases v <;> simp [supported.eq_def] at hsup
    rename_i es
    obtain ⟨⟨⟨hk, hv⟩, hse⟩, hnd0⟩ := hsup
    have hnd : (es.map Prod.fst).Nodup := by
      have := hnd0
      simpa [entryKeysNodup] using this
    have hes : es ≠ [] := by
      intro hc
      subst hc
      exact hnem rfl
    obtain ⟨seg, henc, hstep⟩ := seg_field_map N hIH fields fn idx f kt vt es hlk hf hft hk hv
      hes hse hnd (by simp only [PValue.vmap.sizeOf_spec] at hsz; omega)
    rw [hft] at henc
    refine ⟨seg, henc, ?_⟩
    intro rest fv hfv
    rw [hstep rest fv hfv]
    have hraw : rawField (.tMap kt vt) (.vmap es)
        = .vmap (es.map (fun p => (rawKey kt p.1, rawVal vt p.2))) := by
      simp [rawField, unwrapOpt]
    rw [hraw]
  all_goals
    (rw [hft] at hsup
     obtain ⟨seg, henc, hstep⟩ := seg_field_scalar N hIH fields fn idx f v _ hlk hf
       (by rw [hft]; rfl) (Or.inl hft) hsup (by simp [scalarKind, isMsg]) hsz
     rw [hft] at henc hstep
     refine ⟨seg, henc, ?_⟩
     intro rest fv hfv
     rw [hstep rest fv, dictInsert_fresh fv idx _ hfv])

end Protodantic

namespace Protodantic

theorem supportedFields_length :
    ∀ (fs : List FieldDecl) (vs : List PValue), supportedFields fs vs = true →
      vs.length = fs.length := by
  intro fs
  induction fs with
  | nil => intro vs h; cases vs <;> simp_all [supportedFields]
  | cons f fs' ih =>
    intro vs h
    cases vs with
    | nil => simp [supportedFields] at h
    | cons v vs' =>
      rw [supportedFields] at h
      simp only [Bool.and_eq_true] at h
      simp [ih vs' h.2]

theorem supportedFields_getD :
    ∀ (fs : List FieldDecl) (vs : List PValue), supportedFields fs vs = true →
      ∀ i, i < fs.length → fieldOk (fs.getD i dfltDecl) (vs.getD i .vnone) = true := by
  intro fs
  induction fs with
  | nil => intro vs h i hi; simp at hi
  | cons f fs' ih =>
    intro vs h i hi
    cases vs with
    | nil => simp [supportedFields] at h
    | cons v vs' =>
      rw [supportedFields] at h
      simp only [Bool.and_eq_true] at h
      cases i with
      | zero => simpa [List.getD] using h.1
      | succ j =>
        simp only [List.getD_cons_succ]
        exact ih vs' h.2 j (by simpa using hi)

theorem dictLookup_self_of_nodup (pm : List (Nat × Nat))
    (hnd : (pm.map Prod.fst).Nodup) :
    ∀ p ∈ pm, dictLookup pm p.1 = some p.2 := by
  induction pm with
  | nil => intro p hp; simp at hp
  | cons q rest ih =>
    intro p hp
    simp only [List.map_cons, List.nodup_cons] at hnd
    rcases List.mem_cons.mp hp with rfl | hmem
    · unfold dictLookup
      simp [List.find?]
    · have hne : q.1 ≠ p.1 := by
        intro hc
        exact hnd.1 (hc ▸ List.mem_map_of_mem Prod.fst hmem)
      unfold dictLookup
      simp only [List.find?]
      rw [show (decide (q.1 = p.1)) = false by simp [hne]]
      exact ih hnd.2 p hmem

theorem dump_chain (N : Nat) (hIH : RT N) (fields : List FieldDecl) (vals : List PValue)
    (hsf : supportedFields fields vals = true)
    (hsz : sizeOf vals ≤ N) :
    ∀ (entries : List (Nat × Nat)),
      (∀ p ∈ entries, dictLookup (create_proto_map fields) p.1 = some p.2) →
      (entries.map Prod.snd).Nodup →
      (∀ p ∈ entries, p.2 < fields.length) →
      ∃ out, dumpFields entries fields vals = .ok out ∧
        ∀ (rest : List Nat) (fv : List (Nat × PValue)),
          (∀ q ∈ fv, ∀ p ∈ entries, q.1 ≠ p.2) →
          validateLoop fields (out ++ rest) fv
            = validateLoop fields rest (fv ++ accumEntries fields vals entries) := by
  intro entries
  induction entries with
  | nil =>
    intro _ _ _
    refine ⟨[], by rw [dumpFields], ?_⟩
    intro rest fv _
    simp [accumEntries]
  | cons p entries' ih =>
    rcases p with ⟨fn, i⟩
    intro hlks hnd hbound
    have hlk : dictLookup (create_proto_map fields) fn = some i := hlks (fn, i) (by simp)
    have hi : i < fields.length := hbound (fn, i) (by simp)
    have hnd' : (entries'.map Prod.snd).Nodup := by
      simp only [List.map_cons, List.nodup_cons] at hnd
      exact hnd.2
    have hinotin : i ∉ entries'.map Prod.snd := by
      simp only [List.map_cons, List.nodup_cons] at hnd
      exact hnd.1
    obtain ⟨out', henc', hstep'⟩ := ih (fun q hq => hlks q (by simp [hq])) hnd'
      (fun q hq => hbound q (by simp [hq]))
    have hfok := supportedFields_getD fields vals hsf i hi
    rw [fieldOk] at hfok
    by_cases hv1 : vals.getD i .vnone = PValue.vnone
    · refine ⟨out', ?_, ?_⟩
      · rw [dumpFields]
        simp only [hv1, if_pos]
        exact henc'
      · intro rest fv hdisj
        rw [hstep' rest fv (fun q hq p hp => hdisj q hq p (by simp [hp]))]
        have : accumEntries fields vals ((fn, i) :: entries')
            = accumEntries fields vals entries' := by
          simp only [accumEntries, List.filterMap_cons]
          rw [if_pos hv1]
        rw [this]
    · by_cases hv2 : (!(fields.getD i dfltDecl).required
          && decide (vals.getD i .vnone = (fields.getD i dfltDecl).dflt)) = true
      · refine ⟨out', ?_, ?_⟩
        · rw [dumpFields]
          rw [if_neg hv1, if_pos hv2]
          exact henc'
        · intro rest fv hdisj
          rw [hstep' rest fv (fun q hq p hp => hdisj q hq p (by simp [hp]))]
          have : accumEntries fields vals ((fn, i) :: entries')
              = accumEntries fields vals entries' := by
            simp only [accumEntries, List.filterMap_cons]
            rw [if_neg hv1]
            simp only [Bool.and_eq_true, Bool.not_eq_true', decide_eq_true_eq] at hv2
            rw [if_pos (show (!(fields.getD i dfltDecl).required
              && decide (vals.getD i PValue.vnone = (fields.getD i dfltDecl).dflt)) = true by
                simp only [Bool.and_eq_true, Bool.not_eq_true', decide_eq_true_eq]
                exact ⟨hv2.1, hv2.2⟩)]
          rw [this]
      · rw [if_neg hv1, if_neg (by simpa using hv2)] at hfok
        simp only [Bool.and_eq_true, Bool.not_eq_true', decide_eq_true_eq] at hfok
        obtain ⟨⟨hsup, hnel⟩, hnem⟩ := hfok
        have hszv : sizeOf (vals.getD i .vnone) ≤ N := by
          rw [List.getD_eq_getElem?_getD]
          exact le_trans (sizeOf_getD_le vals i) hsz
        obtain ⟨seg, hseg, hstep⟩ := seg_field_main N hIH fields fn i
          (fields.getD i dfltDecl) (vals.getD i .vnone) hlk rfl hsup hv1
          (by simpa using hnel) (by simpa using hnem) hszv
        refine ⟨seg ++ out', ?_, ?_⟩
        · rw [dumpFields]
          rw [if_neg hv1, if_neg (by simpa using hv2)]
          rw [hseg, except_bind_ok, henc', except_bind_ok]
        · intro rest fv hdisj
          rw [List.append_assoc]
          rw [hstep (out' ++ rest) fv (fun q hq => hdisj q hq (fn, i) (by simp))]
          rw [hstep' rest (fv ++ [(i, rawField (fields.getD i dfltDecl).ty (vals.getD i .vnone))])
            (fun q hq p hp => by
              rcases List.mem_append.mp hq with hq1 | hq2
              · exact hdisj q hq1 p (by simp [hp])
              · simp at hq2
                subst hq2
                simp only
                intro hc
                exact hinotin (hc ▸ List.mem_map_of_mem Prod.snd hp))]
          have : accumEntries fields vals ((fn, i) :: entries')
              = (i, rawField (fields.getD i dfltDecl).ty (vals.getD i .vnone))
                :: accumEntries fields vals entries' := by
            simp only [accumEntries, List.filterMap_cons]
            rw [if_neg hv1, if_neg (by simpa using hv2)]
          rw [this]
          simp

end Protodantic

namespace Protodantic

theorem accumEntries_eq (fields : List FieldDecl) (vals : List PValue)
    (entries : List (Nat × Nat)) :
    accumEntries fields vals entries
      = (entries.map Prod.snd).filterMap (skipF fields vals) := by
  rw [List.filterMap_map]
  rfl

theorem skipF_shape (fields : List FieldDecl) (vals : List PValue) (i : Nat) :
    skipF fields vals i = none ∨ ∃ w, skipF fields vals i = some (i, w) := by
  rw [skipF]
  by_cases h1 : vals.getD i .vnone = .vnone
  · left; rw [if_pos h1]
  · rw [if_neg h1]
    by_cases h2 : (!(fields.getD i dfltDecl).required
        && vals.getD i .vnone = (fields.getD i dfltDecl).dflt) = true
    · left; rw [if_pos h2]
    · right
      exact ⟨_, by rw [if_neg h2]⟩

theorem dictLookup_none {κ α : Type} [DecidableEq κ] (m : List (κ × α)) (k : κ)
    (h : ∀ p ∈ m, p.1 ≠ k) : dictLookup m k = none := by
  unfold dictLookup
  rw [List.find?_eq_none.mpr (fun p hp => by simp [h p hp])]
  rfl

theorem dictLookup_cons_self {κ α : Type} [DecidableEq κ] (a : κ) (x : α)
    (m : List (κ × α)) : dictLookup ((a, x) :: m) a = some x := by
  unfold dictLookup
  simp [List.find?]

theorem dictLookup_cons_ne {κ α : Type} [DecidableEq κ] (a : κ) (x : α)
    (m : List (κ × α)) (k : κ) (h : a ≠ k) :
    dictLookup ((a, x) :: m) k = dictLookup m k := by
  unfold dictLookup
  simp only [List.find?]
  rw [show (decide (a = k)) = false by simp [h]]

theorem filterMap_range'_key_ge (g : Nat → Option (Nat × PValue))
    (hg : ∀ i, g i = none ∨ ∃ w, g i = some (i, w)) (k i0 : Nat) :
    ∀ p ∈ (List.range' i0 k).filterMap g, i0 ≤ p.1 := by
  intro p hp
  obtain ⟨i, hi, hgi⟩ := List.mem_filterMap.mp hp
  rcases hg i with hnone | ⟨w, hsome⟩
  · rw [hnone] at hgi; exact absurd hgi (by simp)
  · rw [hsome] at hgi
    obtain rfl := Option.some_injective _ hgi
    exact (List.mem_range'_1.mp hi).1

theorem dictLookup_filterMap_range' (g : Nat → Option (Nat × PValue))
    (hg : ∀ i, g i = none ∨ ∃ w, g i = some (i, w)) :
    ∀ (k i0 j : Nat), j < k →
      dictLookup ((List.range' i0 k).filterMap g) (i0 + j)
        = Option.map Prod.snd (g (i0 + j)) := by
  intro k
  induction k with
  | zero => intro i0 j hj; omega
  | succ k' ih =>
    intro i0 j hj
    rw [List.range'_succ]
    cases j with
    | zero =>
      simp only [Nat.add_zero]
      rcases hg i0 with hnone | ⟨w, hsome⟩
      · rw [List.filterMap_cons_none hnone, hnone]
        rw [dictLookup_none _ i0 (fun p hp => by
          have := filterMap_range'_key_ge g hg k' (i0 + 1) p hp
          omega)]
        rfl
      · rw [List.filterMap_cons_some hsome, hsome]
        rw [dictLookup_cons_self]
        rfl
    | succ j' =>
      have hidx : i0 + (j' + 1) = (i0 + 1) + j' := by omega
      rcases hg i0 with hnone | ⟨w, hsome⟩
      · rw [List.filterMap_cons_none hnone, hidx]
        exact ih (i0 + 1) j' (by omega)
      · rw [List.filterMap_cons_some hsome]
        rw [dictLookup_cons_ne i0 w _ (i0 + (j' + 1)) (by omega)]
        rw [hidx]
        exact ih (i0 + 1) j' (by omega)

theorem constructFields_of_lookup :
    ∀ (fs : List FieldDecl) (i0 : Nat) (vs : List PValue) (A : List (Nat × PValue)),
      vs.length = fs.length →
      (∀ j, j < fs.length → fieldOk (fs.getD j dfltDecl) (vs.getD j .vnone) = true) →
      (∀ j, j < fs.length →
        dictLookup A (i0 + j) =
          (if vs.getD j .vnone = .vnone then none
           else if !(fs.getD j dfltDecl).required
               && vs.getD j .vnone = (fs.getD j dfltDecl).dflt then none
           else some (rawField (fs.getD j dfltDecl).ty (vs.getD j .vnone)))) →
      constructFields fs A i0 = .ok vs := by
  intro fs
  induction fs with
  | nil =>
    intro i0 vs A hlen _ _
    cases vs with
    | nil => rw [constructFields]
    | cons v vs' => simp at hlen
  | cons f fs' ih =>
    intro i0 vs A hlen hok hchar
    cases vs with
    | nil => simp at hlen
    | cons v vs' =>
      have h0ok := hok 0 (by simp)
      have h0ch := hchar 0 (by simp)
      simp only [List.getD_cons_zero] at h0ok h0ch
      rw [Nat.add_zero] at h0ch
      have hrest : constructFields fs' A (i0 + 1) = .ok vs' := by
        apply ih (i0 + 1) vs' A (by simpa using hlen)
        · intro j hj
          have h := hok (j + 1) (by simpa using hj)
          simpa only [List.getD_cons_succ] using h
        · intro j hj
          have h := hchar (j + 1) (by simpa using hj)
          rw [show i0 + (j + 1) = i0 + 1 + j from by omega] at h
          simpa only [List.getD_cons_succ] using h
      rw [constructFields]
      by_cases hv1 : v = PValue.vnone
      · rw [if_pos hv1] at h0ch
        rw [h0ch]
        rw [fieldOk, if_pos hv1] at h0ok
        simp only [Bool.and_eq_true, Bool.not_eq_true', decide_eq_true_eq] at h0ok
        rw [h0ok.1]
        simp only [Bool.false_eq_true, if_false]
        rw [hrest, except_bind_ok]
        rw [h0ok.2, hv1]
      · rw [if_neg hv1] at h0ch
        by_cases hv2 : (!f.required && v = f.dflt) = true
        · rw [if_pos hv2] at h0ch
          rw [h0ch]
          simp only [Bool.and_eq_true, Bool.not_eq_true', decide_eq_true_eq] at hv2
          rw [hv2.1]
          simp only [Bool.false_eq_true, if_false]
          rw [hrest, except_bind_ok]
          rw [hv2.2]
        · rw [if_neg hv2] at h0ch
          rw [fieldOk, if_neg hv1, if_neg (by simpa using hv2)] at h0ok
          simp only [Bool.and_eq_true, Bool.not_eq_true', decide_eq_true_eq] at h0ok
          simp only [h0ch]
          rw [validateValue_rawField f.ty v h0ok.1.1 hv1, except_bind_ok]
          rw [hrest, except_bind_ok]

theorem protoNumsAux_length : ∀ (fs : List FieldDecl) (di : Nat),
    (protoNumsAux fs di).length = fs.length := by
  intro fs
  induction fs with
  | nil => intro di; rfl
  | cons f fs' ih => intro di; simp [protoNumsAux, ih]

theorem protoNums_length (fields : List FieldDecl) :
    (protoNums fields).length = fields.length :=
  protoNumsAux_length fields 1

end Protodantic

namespace Protodantic

/-- The encoder/decoder round trip succeeds on every supported record value,
at every size bound. -/
theorem roundtrip_all : ∀ N, RT N := by
  intro N
  induction N using Nat.strong_induction_on with
  | _ N ih =>
    intro d vs hsz hsup
    have hIH : RT (sizeOf vs) := ih (sizeOf vs) hsz
    rw [supportedMsg] at hsup
    simp only [Bool.and_eq_true] at hsup
    obtain ⟨hschema, hsf⟩ := hsup
    rw [schemaOkB] at hschema
    simp only [Bool.and_eq_true, List.all_eq_true, decide_eq_true_eq] at hschema
    obtain ⟨hmeta, hnodup⟩ := hschema
    have hpm : create_proto_map d = (protoNums d).zip (List.range d.length) := by
      have h := createProtoMapAux_eq d 0 1 [] (fun f hf => by simpa using hmeta f hf)
        hnodup (by simp)
      simpa [create_proto_map, protoNums, List.range_eq_range'] using h
    have hlen : (protoNums d).length = d.length := protoNums_length d
    have hfst : (create_proto_map d).map Prod.fst = protoNums d := by
      rw [hpm]
      exact List.map_fst_zip _ _ (by simp [hlen])
    have hsnd : (create_proto_map d).map Prod.snd = List.range d.length := by
      rw [hpm]
      exact List.map_snd_zip _ _ (by simp [hlen])
    have hc1 : ∀ p ∈ create_proto_map d, dictLookup (create_proto_map d) p.1 = some p.2 :=
      dictLookup_self_of_nodup _ (by rw [hfst]; exact hnodup)
    have hc2 : ((create_proto_map d).map Prod.snd).Nodup := by
      rw [hsnd]; exact List.nodup_range _
    have hc3 : ∀ p ∈ create_proto_map d, p.2 < d.length := by
      intro p hp
      have hm : p.2 ∈ List.range d.length := by
        rw [← hsnd]; exact List.mem_map_of_mem Prod.snd hp
      simpa using hm
    obtain ⟨out, hout, hstep⟩ := dump_chain (sizeOf vs) hIH d vs hsf (le_refl _)
      (create_proto_map d) hc1 hc2 hc3
    have hA : accumEntries d vs (create_proto_map d)
        = (List.range' 0 d.length).filterMap (skipF d vs) := by
      rw [accumEntries_eq, hsnd, List.range_eq_range']
    have hchar : ∀ j, j < d.length →
        dictLookup (accumEntries d vs (create_proto_map d)) (0 + j) =
          (if vs.getD j .vnone = .vnone then none
           else if !(d.getD j dfltDecl).required
               && vs.getD j .vnone = (d.getD j dfltDecl).dflt then none
           else some (rawField (d.getD j dfltDecl).ty (vs.getD j .vnone))) := by
      intro j hj
      rw [hA]
      rw [dictLookup_filterMap_range' (skipF d vs) (skipF_shape d vs) d.length 0 j hj]
      rw [Nat.zero_add, skipF]
      by_cases h1 : vs.getD j PValue.vnone = PValue.vnone
      · rw [if_pos h1, if_pos h1]
        rfl
      · rw [if_neg h1, if_neg h1]
        by_cases h2 : (!(d.getD j dfltDecl).required
            && vs.getD j PValue.vnone = (d.getD j dfltDecl).dflt) = true
        · rw [if_pos h2, if_pos h2]
          rfl
        · rw [if_neg h2, if_neg h2]
          rfl
    have hcf : constructFields d (accumEntries d vs (create_proto_map d)) 0 = .ok vs :=
      constructFields_of_lookup d 0 vs _ (supportedFields_length d vs hsf)
        (supportedFields_getD d vs hsf) hchar
    refine ⟨out, ?_, ?_⟩
    · rw [model_dump_proto]
      exact hout
    · have hloop := hstep [] [] (by simp)
      rw [List.append_nil] at hloop
      rw [model_validate_proto, hloop, validateLoop, except_bind_ok]
      rw [constructModel]
      simp only [List.nil_append]
      rw [hcf, except_bind_ok]

end Protodantic

namespace Protodantic

/-- C1 (amended): the encode/decode round trip holds for every record
whose schema survives `create_proto_map` intact with pairwise-distinct field
numbers and whose values are of `supported` shape — which excludes lists
with scalar elements (int/bool/float/enum: `encode_list` writes bare scalar
payloads under a length-delimited key, so only str/bytes/message elements
round-trip), empty lists or maps on emitted fields, and `None` values on
fields not defaulting to `None`. -/
theorem c1_amended (d : List FieldDecl) (vs : List PValue)
    (h : supportedMsg d vs = true) :
    ∃ out, model_dump_proto d vs = .ok out ∧
      model_validate_proto d out = .ok (.vmsg vs) :=
  roundtrip_all (sizeOf vs + 1) d vs (Nat.lt_succ_self _) h

/-- Witness for `c1_amended` on a concrete {int, str} record. -/
theorem c1_witness :
    supportedMsg exIntStr [.vint 42, .vstr [65]] = true ∧
      ∃ out, model_dump_proto exIntStr [.vint 42, .vstr [65]] = .ok out ∧
        model_validate_proto exIntStr out = .ok (.vmsg [.vint 42, .vstr [65]]) := by
  have hs : supportedMsg exIntStr [PValue.vint 42, PValue.vstr [65]] = true := by
    simp [supportedMsg, schemaOkB, protoNums, protoNumsAux, supportedFields, fieldOk,
      supported, scalarKind, isMsg, exIntStr, FieldDecl.meta, FieldDecl.ty,
      FieldDecl.required, FieldDecl.dflt]
  exact ⟨hs, c1_amended exIntStr [.vint 42, .vstr [65]] hs⟩

/-- C1 counterexample: the supported-value round trip of the original
claim fails on `list[int]`: [1] at field 1 encodes to [0x0A, 0x01], whose
decoding fails pydantic validation instead of returning the record. -/
theorem c1_counterexample :
    model_dump_proto exListInt [.vlist [.vint 1]] = .ok [10, 1] ∧
      model_validate_proto exListInt [10, 1] = .error "ValidationError" := by
  constructor
  · simp [model_dump_proto, dumpFields, create_proto_map, createProtoMapAux, exListInt,
      FieldDecl.meta, dictInsert, encode_field, encode_value, encodeListItems, build_key,
      get_wiretype, unwrapOpt, FieldDecl.ty, FieldDecl.required, FieldDecl.dflt, dfltDecl,
      encodeVarint, WIRETYPE_VARINT, WIRETYPE_FIXED64, WIRETYPE_LENGTH_DELIMITED]
  · simp [model_validate_proto, validateLoop, decode_varint, decodeVarintAux,
      create_proto_map, createProtoMapAux, exListInt, FieldDecl.meta, dictInsert, dictLookup,
      List.find?, accumulate, unwrapOpt, FieldDecl.ty, dfltDecl, constructModel,
      constructFields, validateValue, validateList,
      WIRETYPE_VARINT, WIRETYPE_FIXED64, WIRETYPE_LENGTH_DELIMITED]

theorem c3_witness :
    ([97] : List Nat).length < 5 ∧
      model_validate_proto exBytesReq (10 :: (encodeVarint 5 ++ [97]))
        = .ok (.vmsg [.vbytes [97]]) :=
  ⟨by decide, c3_amended 5 [97] (by decide)⟩

/-- Witness for `c4_amended` on a two-field record without overrides. -/
theorem c4_witness :
    (∀ f ∈ exIntStr, f.meta = none) ∧
      ((create_proto_map exIntStr).map Prod.fst = List.range' 1 exIntStr.length ∧
        List.Chain' (· < ·) ((create_proto_map exIntStr).map Prod.fst)) :=
  ⟨by decide, c4_amended exIntStr (by decide)⟩

/-- Witness for `c6_amended` with the 8-byte payload encoding 2.0. -/
theorem c6_witness :
    ([0, 0, 0, 0, 0, 0, 0, 64] : List Nat).length = 8 ∧
      (validateLoop exIntReq (9 :: [0, 0, 0, 0, 0, 0, 0, 64]) []
          = .ok [(0, .vfloat (unpackLE64 [0, 0, 0, 0, 0, 0, 0, 64]))] ∧
        validateLoop exIntReq
            (10 :: (encodeVarint ([0, 0, 0, 0, 0, 0, 0, 64] : List Nat).length
              ++ [0, 0, 0, 0, 0, 0, 0, 64])) []
          = .ok [(0, .vbytes [0, 0, 0, 0, 0, 0, 0, 64])]) :=
  ⟨rfl, c6_amended [0, 0, 0, 0, 0, 0, 0, 64] rfl⟩

/-- Witness for `c7_unknown_field`: field number 2 against a schema
holding only field number 1. -/
theorem c7_witness :
    dictLookup (create_proto_map exIntReq) ((decode_varint (16 :: [1])).1 / 8) = none ∧
      model_validate_proto exIntReq (16 :: [1]) = .error "Unknown field number" :=
  ⟨by decide, c7_unknown_field exIntReq 16 [1] (by decide)⟩

/-- C9 counterexample: a required `list[int]` field holding the empty list
encodes to zero bytes, though the claim says non-optional fields are always
emitted. -/
theorem c9_counterexample :
    model_dump_proto exListInt [.vlist []] = .ok [] ∧
      (exListInt.getD 0 dfltDecl).required = true := by
  constructor
  · simp [model_dump_proto, dumpFields, create_proto_map, createProtoMapAux, exListInt,
      FieldDecl.meta, dictInsert, encode_field, encode_value, encodeListItems, build_key,
      get_wiretype, unwrapOpt, FieldDecl.ty, FieldDecl.required, FieldDecl.dflt, dfltDecl,
      encodeVarint, WIRETYPE_VARINT, WIRETYPE_FIXED64, WIRETYPE_LENGTH_DELIMITED]
  · decide

/-- Witness for `c9_amended`: a required int field with value 0 is emitted
as [0x08, 0x00], and the emptiness characterization holds for it. -/
theorem c9_witness :
    ((FieldDecl.mk none PType.tInt true PValue.vnone).meta = none ∧
        model_dump_proto [FieldDecl.mk none PType.tInt true PValue.vnone] [PValue.vint 0]
          = .ok [8, 0]) ∧
      ((([8, 0] : List Nat) = []
          ↔ PValue.vint 0 = PValue.vnone
            ∨ ((FieldDecl.mk none PType.tInt true PValue.vnone).required = false
                ∧ PValue.vint 0 = (FieldDecl.mk none PType.tInt true PValue.vnone).dflt)
            ∨ PValue.vint 0 = PValue.vlist [] ∨ PValue.vint 0 = PValue.vmap [])
        ∧ ((FieldDecl.mk none PType.tInt true PValue.vnone).required = false →
            model_validate_proto [FieldDecl.mk none PType.tInt true PValue.vnone] []
              = .ok (.vmsg [(FieldDecl.mk none PType.tInt true PValue.vnone).dflt]))) := by
  have hdump : model_dump_proto [FieldDecl.mk none PType.tInt true PValue.vnone]
      [PValue.vint 0] = .ok [8, 0] := by
    simp [model_dump_proto, dumpFields, create_proto_map, createProtoMapAux,
      FieldDecl.meta, dictInsert, encode_field, encode_value, build_key, get_wiretype,
      unwrapOpt, FieldDecl.ty, FieldDecl.required, FieldDecl.dflt, dfltDecl, encodeVarint,
      WIRETYPE_VARINT, WIRETYPE_FIXED64, WIRETYPE_LENGTH_DELIMITED]
  exact ⟨⟨rfl, hdump⟩,
    c9_amended (FieldDecl.mk none PType.tInt true PValue.vnone) (PValue.vint 0) [8, 0]
      rfl hdump⟩

end Protodantic
